import Mathlib

/-!
Verification of the family-tree query program (src/Kariuki.py, with the
near-duplicate evolution src/main.py embedded where the two differ).

The Python dictionaries are modelled as insertion-ordered association lists
with Python dict semantics: assignment replaces the value in place for an
existing key and appends for a fresh key, `del` removes the entry, and
`update` assigns every entry of the second map into the first (so an entry
of the second map overwrites an entry of the first sharing its key).

The recursive resolver `_get_ancestors` is embedded with an explicit fuel
parameter: Python recursion has no fuel, so the embedding returns `none`
when the fuel runs out, and theorems show that on acyclic stores the result
stabilises once the fuel is large enough, which is exactly the termination
statement.  The result type is `Option (Option AncMap)`: the outer `none`
models divergence or an uncaught exception, `some none` models the Python
function returning `None` (person absent from the store), and
`some (some m)` a normal return of the dictionary `m`.

Diagnostic strings reproduce the Python messages except that the quote
characters Python places around interpolated values are elided.
-/

set_option maxHeartbeats 1000000
set_option maxRecDepth 4000

namespace Kariuki

/-- A Python dict keyed by strings, in insertion order. -/
abbrev Dict (α : Type) := List (String × α)

/-- First-match lookup, the reading side of a Python dict. -/
def dictLookup {α : Type} : Dict α → String → Option α
  | [], _ => none
  | (k, v) :: rest, key => if k = key then some v else dictLookup rest key

/-- Python dict assignment: replace in place if the key exists, append otherwise. -/
def dictSet {α : Type} : Dict α → String → α → Dict α
  | [], key, v => [(key, v)]
  | (k, w) :: rest, key, v =>
    if k = key then (k, v) :: rest else (k, w) :: dictSet rest key v

/-- Python `del d[key]`: drop the entry carrying the key. -/
def dictDel {α : Type} : Dict α → String → Dict α
  | [], _ => []
  | (k, w) :: rest, key => if k = key then rest else (k, w) :: dictDel rest key

/-- Python `d.update(other)`: assign every entry of `other` into `d` in order. -/
def dictUpdate {α : Type} (d other : Dict α) : Dict α :=
  other.foldl (fun acc kv => dictSet acc kv.1 kv.2) d

/-- Python `d.keys()` in insertion order. -/
def dictKeys {α : Type} (d : Dict α) : List String := d.map Prod.fst

/-- The family tree store: person name to optional ordered parent pair
(`None` marks a root), as the global `family_tree` dict of the source. -/
abbrev Store := Dict (Option (String × String))

/-- An ancestor map: ancestor name to the list of degrees at which the
ancestor occurs, as built by `_get_ancestors`. -/
abbrev AncMap := Dict (List Nat)

/-- Reading `ancestors[k]` at a point where the key is known to be present
(the two parent keys are seeded before every such access in the source). -/
def getDeg (m : AncMap) (k : String) : List Nat := (dictLookup m k).getD []

/-- Source `add_person`: unconditional dict assignment into the store. -/
def add_person (t : Store) (name : String) (parents : Option (String × String)) : Store :=
  dictSet t name parents

/-- The guarded insertion used by `handle_E_query` for each name: add the
person only when the name is not yet a key of the store. -/
def insertPerson (t : Store) (name : String) (parents : Option (String × String)) : Store :=
  if (dictLookup t name).isSome then t else add_person t name parents

/-- Source `handle_E_query`: the first two names are registered as roots if
new, and a third name is registered with the first two as parents if new.
Lists of fewer than two names are excluded by the arity check of
`handle_query` before this function is ever called. -/
def handle_E_query (names : List String) (t : Store) : Store :=
  match names with
  | a :: b :: rest =>
    let t1 := insertPerson t a none
    let t2 := insertPerson t1 b none
    match rest with
    | [c] => insertPerson t2 c (some (a, b))
    | _ => t2
  | _ => t

/-- The merge step of `_get_ancestors` for a person with parents: seed both
parents at the current degree, fold the degrees of a parent that occurs in
the other parent's sub-map into the seeded entry and delete it from that
sub-map, de-duplicate both parents' degree lists, and finally `update` with
the two remaining sub-maps in order. -/
def mergeParents (parent1 parent2 : String) (degree : Nat) (m1 m2 : AncMap) : AncMap :=
  let anc0 : AncMap := dictSet (dictSet [] parent1 [degree]) parent2 [degree]
  let step1 : AncMap × AncMap :=
    match dictLookup m1 parent2 with
    | some ds => (dictSet anc0 parent2 (getDeg anc0 parent2 ++ ds), dictDel m1 parent2)
    | none => (anc0, m1)
  let step2 : AncMap × AncMap :=
    match dictLookup m2 parent1 with
    | some ds => (dictSet step1.1 parent1 (getDeg step1.1 parent1 ++ ds), dictDel m2 parent1)
    | none => (step1.1, m2)
  let anc3 := dictSet step2.1 parent1 (getDeg step2.1 parent1).dedup
  let anc4 := dictSet anc3 parent2 (getDeg anc3 parent2).dedup
  dictUpdate (dictUpdate anc4 step1.2) step2.2

/-- Source `_get_ancestors`, with explicit fuel.  `some none` is the Python
`None` returned for a person absent from the store; the outer `none` models
either running out of fuel (divergence) or the `TypeError` raised by the
membership test `parent2 in parent1_ancestors` when a recursive call
returned `None`. -/
def _get_ancestors (fuel : Nat) (t : Store) (person : String) (degree : Nat) :
    Option (Option AncMap) :=
  match fuel with
  | 0 => none
  | fuel + 1 =>
    match dictLookup t person with
    | none => some none
    | some none => some (some [])
    | some (some (parent1, parent2)) =>
      match _get_ancestors fuel t parent1 (degree + 1),
            _get_ancestors fuel t parent2 (degree + 1) with
      | some (some m1), some (some m2) =>
        some (some (mergeParents parent1 parent2 degree m1 m2))
      | _, _ => none

/-- Python `degree in degrees` where `degree` is the int argument and
`degrees` the stored list of natural degrees. -/
def intIn (d : Int) (ds : List Nat) : Bool := ds.any fun x => (x : Int) == d

/-- Source `get_ancestors`: filter the resolver map down to the names whose
degree list contains the requested degree, or all names for degree `-1`. -/
def get_ancestors (fuel : Nat) (t : Store) (person : String) (degree : Int) :
    Option (List String) :=
  match _get_ancestors fuel t person 0 with
  | some (some m) =>
    some ((m.filter fun kv => intIn degree kv.2 || (degree == (-1 : Int))).map Prod.fst)
  | _ => none

/-- Source `is_ancestor`. -/
def is_ancestor (fuel : Nat) (t : Store) (anc desc : String) (degree : Int) :
    Option Bool :=
  (get_ancestors fuel t desc degree).map fun l => l.contains anc

/-- Truthiness of `set(a) & set(b)` for two lists of names. -/
def interB (a b : List String) : Bool := a.any fun x => b.contains x

/-- Source `is_unrelated`. -/
def is_unrelated (fuel : Nat) (t : Store) (person1 person2 : String) : Option Bool :=
  match get_ancestors fuel t person1 (-1), get_ancestors fuel t person2 (-1) with
  | some a1, some a2 =>
    some (!(a1.contains person2 || a2.contains person1 || person1 == person2
            || interB a1 a2))
  | _, _ => none

/-- Source `get_unrelated`: every tree member unrelated to the person. -/
def optFilter {α : Type} (f : α → Option Bool) : List α → Option (List α)
  | [] => some []
  | x :: xs =>
    match f x with
    | none => none
    | some b =>
      match optFilter f xs with
      | none => none
      | some r => some (if b then x :: r else r)

/-- Source `get_unrelated`. -/
def get_unrelated (fuel : Nat) (t : Store) (person : String) : Option (List String) :=
  optFilter (fun name => is_unrelated fuel t name person) (dictKeys t)

/-- Source `is_child`: membership of the parent in the recorded parent pair. -/
def is_child (t : Store) (child parent : String) : Option Bool :=
  match dictLookup t child with
  | none => none
  | some none => some false
  | some (some (a, b)) => some (parent == a || parent == b)

/-- Source `get_children`. -/
def get_children (t : Store) (parent : String) : Option (List String) :=
  optFilter (fun name => is_child t name parent) (dictKeys t)

/-- Source `is_sibling`: distinct, both with recorded parents, and the two
parent pairs share a member.  The short-circuit evaluation of the Python
`and` chain is preserved: a `KeyError` on the second person is only possible
after the first person was found with recorded parents. -/
def is_sibling (t : Store) (sibling person : String) : Option Bool :=
  if sibling = person then some false
  else
    match dictLookup t sibling with
    | none => none
    | some none => some false
    | some (some (a1, a2)) =>
      match dictLookup t person with
      | none => none
      | some none => some false
      | some (some (b1, b2)) => some (a1 == b1 || a1 == b2 || a2 == b1 || a2 == b2)

/-- Source `get_siblings`. -/
def get_siblings (t : Store) (person : String) : Option (List String) :=
  optFilter (fun name => is_sibling t name person) (dictKeys t)

/-- The candidate filter of `get_cousins`: not the person, not unrelated to
the person, and not an ancestor of the person in either direction, with the
short-circuit order of the source comprehension. -/
def cousinFilter (fuel : Nat) (t : Store) (person name : String) : Option Bool :=
  if name = person then some false
  else
    match is_unrelated fuel t name person with
    | none => none
    | some u =>
      if u then some false
      else
        match is_ancestor fuel t name person (-1) with
        | none => none
        | some b1 =>
          if b1 then some false
          else
            match is_ancestor fuel t person name (-1) with
            | none => none
            | some b2 => some (!b2)

/-- Python `min` over a list of naturals: raises on the empty list. -/
def pyMin : List Nat → Option Nat
  | [] => none
  | x :: xs => some (xs.foldl Nat.min x)

/-- The per-ancestor quantity of `get_cousins`: the minimum of the least
degree at which the ancestor occurs in each of the two maps. -/
def perAncestorMin (mp mc : AncMap) (k : String) : Option Nat :=
  match dictLookup mp k, dictLookup mc k with
  | some dsp, some dsc =>
    match pyMin dsp, pyMin dsc with
    | some a, some b => some (Nat.min a b)
    | _, _ => none
  | _, _ => none

/-- Monadic map used to build the values of the `ancestor_degrees` dict. -/
def optMapList {α β : Type} (f : α → Option β) : List α → Option (List β)
  | [] => some []
  | x :: xs =>
    match f x with
    | none => none
    | some y =>
      match optMapList f xs with
      | none => none
      | some r => some (y :: r)

/-- The cousin degree the source computes for a candidate: the minimum over
all common ancestors of the per-ancestor minimum; `none` when a Python
`min` or lookup in the loop body would raise (in particular when there is no
common ancestor at all). -/
def cousinDegreeOf (fuel : Nat) (t : Store) (person cousin : String) : Option Nat :=
  match _get_ancestors fuel t person 0, _get_ancestors fuel t cousin 0 with
  | some (some mp), some (some mc) =>
    let common := (dictKeys mp).filter fun k => (dictKeys mc).contains k
    match optMapList (perAncestorMin mp mc) common with
    | none => none
    | some vals => pyMin vals
  | _, _ => none

/-- Source `get_cousins`: the candidate list, returned whole for degree `-1`
and filtered by the computed cousin degree otherwise. -/
def get_cousins (fuel : Nat) (t : Store) (person : String) (degree : Int) :
    Option (List String) :=
  match optFilter (cousinFilter fuel t person) (dictKeys t) with
  | none => none
  | some all_cousins =>
    if degree == (-1 : Int) then some all_cousins
    else
      optFilter (fun cousin =>
        match cousinDegreeOf fuel t person cousin with
        | none => none
        | some cd => some ((cd : Int) == degree)) all_cousins

/-- Source `is_cousin`. -/
def is_cousin (fuel : Nat) (t : Store) (cousin person : String) (degree : Int) :
    Option Bool :=
  (get_cousins fuel t person degree).map fun l => l.contains cousin

/-- Python `list.pop(i)`: the removed element together with the remainder,
`none` for an out-of-range index (an `IndexError`). -/
def popAt {α : Type} : List α → Nat → Option (α × List α)
  | [], _ => none
  | x :: xs, 0 => some (x, xs)
  | x :: xs, n + 1 =>
    match popAt xs n with
    | some (y, ys) => some (y, x :: ys)
    | none => none

/-- Value of a decimal digit character. -/
def digitVal (c : Char) : Option Nat :=
  if 48 ≤ c.toNat ∧ c.toNat ≤ 57 then some (c.toNat - 48) else none

/-- Value of a nonempty string of decimal digits. -/
def digitsVal : List Char → Option Nat
  | [] => none
  | cs =>
    cs.foldl
      (fun acc c =>
        match acc, digitVal c with
        | some n, some d => some (10 * n + d)
        | _, _ => none)
      (some 0)

/-- Python `int(s)` on a whitespace-free token: an optional sign followed by
decimal digits, `none` (a `ValueError`) otherwise. -/
def pyParseInt (s : String) : Option Int :=
  match s.toList with
  | '-' :: rest => (digitsVal rest).map fun n => -(n : Int)
  | '+' :: rest => (digitsVal rest).map fun n => (n : Int)
  | l => (digitsVal l).map fun n => (n : Int)

/-- The two output lines produced by printing a Yes/No answer: the format
string carries its own newline, and `print` adds another. -/
def yesNoOut (b : Bool) : List String :=
  [(if b then "Yes" else "No") ++ "\n"]

/-- Insertion of a string into a sorted list by the order of `compare`. -/
def insertSortedStr (x : String) : List String → List String
  | [] => [x]
  | y :: ys => if compare x y == Ordering.gt then y :: insertSortedStr x ys else x :: y :: ys

/-- Python `sorted` on a list of names (lexicographic). -/
def pySorted (l : List String) : List String := l.foldr insertSortedStr []

/-- Formatting of a `W` result: each name on its own line in sorted order,
or the literal `Nobody`, then a blank line. -/
def wOut (l : List String) : List String :=
  (if l.isEmpty then ["Nobody"] else pySorted l) ++ [""]

/-- Source `handle_X_query` of Kariuki.py: dispatch on the relation keyword
and print Yes/No, or a diagnostic for an unknown relation.  The names list
always has exactly two elements when called from `handle_query`; any other
shape is mapped to the error value. -/
def handle_X_query (fuel : Nat) (t : Store) (relation : String) (names : List String)
    (degree : Int) : Option (List String) :=
  match names with
  | [n0, n1] =>
    if relation = "ancestor" then (is_ancestor fuel t n0 n1 (-1)).map yesNoOut
    else if relation = "unrelated" then (is_unrelated fuel t n0 n1).map yesNoOut
    else if relation = "child" then (is_child t n0 n1).map yesNoOut
    else if relation = "sibling" then (is_sibling t n0 n1).map yesNoOut
    else if relation = "cousin" then (is_cousin fuel t n0 n1 degree).map yesNoOut
    else some ["Invalid relation: " ++ relation]
  | _ => none

/-- Source `handle_W_query` of Kariuki.py: dispatch on the relation keyword
and print the formatted result; an unknown relation returns silently. -/
def handle_W_query (fuel : Nat) (t : Store) (relation name : String) (degree : Int) :
    Option (List String) :=
  if relation = "ancestor" then (get_ancestors fuel t name (-1)).map wOut
  else if relation = "unrelated" then (get_unrelated fuel t name).map wOut
  else if relation = "child" then (get_children t name).map wOut
  else if relation = "sibling" then (get_siblings t name).map wOut
  else if relation = "cousin" then (get_cousins fuel t name degree).map wOut
  else some []

/-- Source `handle_query` of Kariuki.py, on the whitespace-split token list
of one input line.  The result is the sequence of printed strings together
with the store after the command; `none` models an uncaught exception. -/
def handle_query (fuel : Nat) (tokens : List String) (t : Store) :
    Option (List String × Store) :=
  match tokens with
  | [] => none
  | query_type :: args =>
    let line := String.intercalate " " tokens
    if query_type = "X" then
      let n_args := args.length
      if n_args = 3 then
        match popAt args 1 with
        | none => none
        | some (relation, args1) =>
          if args1.any fun a => (dictLookup t a).isNone then
            some ([line, "[!] All names must be present in the family tree\n"], t)
          else (handle_X_query fuel t relation args1 (-1)).map fun out => (line :: out, t)
      else if n_args = 4 then
        match popAt args 1 with
        | none => none
        | some (relation, args1) =>
          match popAt args1 1 with
          | none => none
          | some (degTok, args2) =>
            match pyParseInt degTok with
            | none => some ([line, "[!] Invalid degree: -1\n"], t)
            | some dv =>
              if args2.any fun a => (dictLookup t a).isNone then
                some ([line, "[!] All names must be present in the family tree\n"], t)
              else (handle_X_query fuel t relation args2 dv).map fun out => (line :: out, t)
      else some ([line, "[!] X query takes three or four arguments\n"], t)
    else if query_type = "W" then
      let dispatch : String → List String → Int → Option (List String × Store) :=
        fun relation rest dv =>
          match rest with
          | [nm] =>
            if (dictLookup t nm).isNone then
              some ([line, "[!] " ++ nm ++ " is not a member of the family tree\n"], t)
            else (handle_W_query fuel t relation nm dv).map fun out => (line :: out, t)
          | _ => none
      let n_args := args.length
      if n_args = 2 then
        match popAt args 0 with
        | none => none
        | some (relation, args1) => dispatch relation args1 (-1)
      else if n_args = 3 then
        match popAt args 0 with
        | none => none
        | some (relation, args1) =>
          match popAt args1 0 with
          | none => none
          | some (degTok, args2) =>
            match pyParseInt degTok with
            | none => some ([line, "[!] Invalid degree: -1\n"], t)
            | some dv => dispatch relation args2 dv
      else some ([line, "[!] W query takes two or three arguments\n"], t)
    else if query_type = "E" then
      if args.length = 2 ∨ args.length = 3 then some ([], handle_E_query args t)
      else some (["[!] E query takes two or three arguments\n"], t)
    else some (["[!] Invalid query type: " ++ query_type ++ "\n"], t)

/-- The list of valid relation keywords of main.py. -/
def relationsList : List String := ["child", "sibling", "ancestor", "cousin", "unrelated"]

/-- Source `handle_X_query` of main.py: silently returns on an unknown
relation, and prints the literal three dots for the unimplemented cousin
relation. -/
def handle_X_query_main (fuel : Nat) (t : Store) (relation : String)
    (names : List String) (degree : Int) : Option (List String) :=
  if !(relationsList.contains relation) then some []
  else
    match names with
    | [n0, n1] =>
      if relation = "ancestor" then (is_ancestor fuel t n0 n1 (-1)).map yesNoOut
      else if relation = "unrelated" then (is_unrelated fuel t n0 n1).map yesNoOut
      else if relation = "child" then (is_child t n0 n1).map yesNoOut
      else if relation = "sibling" then (is_sibling t n0 n1).map yesNoOut
      else some ["...\n"]
    | _ => none

/-- Source `handle_W_query` of main.py. -/
def handle_W_query_main (fuel : Nat) (t : Store) (relation name : String)
    (degree : Int) : Option (List String) :=
  if !(relationsList.contains relation) then some []
  else if relation = "ancestor" then (get_ancestors fuel t name (-1)).map wOut
  else if relation = "unrelated" then (get_unrelated fuel t name).map wOut
  else if relation = "child" then (get_children t name).map wOut
  else if relation = "sibling" then (get_siblings t name).map wOut
  else some (wOut ["..."])

/-- Source `handle_query` of main.py: the same structure as the Kariuki.py
version, with every diagnostic replaced by a silent return and the degree
token popped from the correct position (`args.pop(2)` for `X`,
`args.pop(1)` for `W`). -/
def handle_query_main (fuel : Nat) (tokens : List String) (t : Store) :
    Option (List String × Store) :=
  match tokens with
  | [] => none
  | query_type :: args =>
    let line := String.intercalate " " tokens
    if query_type = "X" then
      let n_args := args.length
      if n_args = 3 then
        match popAt args 1 with
        | none => none
        | some (relation, args1) =>
          if args1.any fun a => (dictLookup t a).isNone then some ([line], t)
          else (handle_X_query_main fuel t relation args1 (-1)).map fun out =>
            (line :: out, t)
      else if n_args = 4 then
        match popAt args 1 with
        | none => none
        | some (relation, args1) =>
          match popAt args1 2 with
          | none => none
          | some (degTok, args2) =>
            match pyParseInt degTok with
            | none => some ([line], t)
            | some dv =>
              if args2.any fun a => (dictLookup t a).isNone then some ([line], t)
              else (handle_X_query_main fuel t relation args2 dv).map fun out =>
                (line :: out, t)
      else some ([line], t)
    else if query_type = "W" then
      let n_args := args.length
      if n_args = 2 then
        match popAt args 0 with
        | none => none
        | some (relation, args1) =>
          match args1 with
          | [nm] =>
            if (dictLookup t nm).isNone then some ([line], t)
            else (handle_W_query_main fuel t relation nm (-1)).map fun out =>
              (line :: out, t)
          | _ => none
      else if n_args = 3 then
        match popAt args 0 with
        | none => none
        | some (relation, args1) =>
          match popAt args1 1 with
          | none => none
          | some (degTok, args2) =>
            match pyParseInt degTok with
            | none => some ([line], t)
            | some dv =>
              match args2 with
              | [nm] =>
                if (dictLookup t nm).isNone then some ([line], t)
                else (handle_W_query_main fuel t relation nm dv).map fun out =>
                  (line :: out, t)
              | _ => none
      else some ([line], t)
    else if query_type = "E" then
      if args.length = 2 ∨ args.length = 3 then some ([], handle_E_query args t)
      else some ([], t)
    else some ([], t)

/-- Closure invariant of the spec: every name referenced as a parent is
itself a key of the store. -/
def ClosedB (t : Store) : Bool :=
  t.all fun e =>
    match e.2 with
    | some (p1, p2) => (dictLookup t p1).isSome && (dictLookup t p2).isSome
    | none => true

/-- Acyclicity of the parent relation, witnessed by a rank function under
which every recorded parent is strictly smaller than the child. -/
def RankOKB (rank : String → Nat) (t : Store) : Bool :=
  t.all fun e =>
    match e.2 with
    | some (p1, p2) => decide (rank p1 < rank e.1) && decide (rank p2 < rank e.1)
    | none => true

/-- Position of the first entry of a name in the store, used as the rank of
insertion order. -/
def posIn (t : Store) (p : String) : Nat := t.findIdx fun e => e.1 == p

/-- Invariant carried by ancestor maps: every entry has a key satisfying
`K` and a nonempty degree list all of whose elements satisfy `P`. -/
def MapOK (K : String → Prop) (P : Nat → Prop) (m : AncMap) : Prop :=
  ∀ kv ∈ m, K kv.1 ∧ kv.2 ≠ [] ∧ ∀ x ∈ kv.2, P x

/-- Invariant of every store reachable by insertion commands: keys are never
duplicated, every recorded parent is a key, and insertion order is a
topological order of the parent relation (each parent strictly earlier). -/
def StoreInv (t : Store) : Prop :=
  (dictKeys t).Nodup ∧ ClosedB t = true ∧ RankOKB (posIn t) t = true

/-- Replay of a sequence of `E` commands against the empty store. -/
def runE (cmds : List (List String)) : Store :=
  cmds.foldl (fun s ns => handle_E_query ns s) []

/-- A store with two founder couples and a shared grandchild generation,
built by commands; used to exercise the claims on concrete input. -/
def storeSib : Store := runE [["p", "q"], ["p", "q", "x"], ["p", "q", "y"]]

/-- The pedigree-collapse store: person c has parents a and b, and b has a
as a parent, so the root z is an ancestor of c along two paths of different
length (degrees 1 and 2). -/
def storeCollapse : Store := runE [["z", "w", "a"], ["a", "v", "b"], ["a", "b", "c"]]

/-- A two-person store used by the dispatcher claims. -/
def storeAB : Store := runE [["A", "B"]]

/-! ### Lemmas about the dict model -/

theorem dictLookup_mem {α : Type} {m : Dict α} {k : String} {v : α}
    (h : dictLookup m k = some v) : (k, v) ∈ m := by
  induction m with
  | nil => simp [dictLookup] at h
  | cons e rest ih =>
    obtain ⟨k', v'⟩ := e
    by_cases hk : k' = k
    · subst hk
      simp [dictLookup] at h
      simp [h]
    · simp [dictLookup, hk] at h
      exact List.mem_cons_of_mem _ (ih h)

theorem mem_dictKeys {α : Type} {m : Dict α} {k : String} :
    k ∈ dictKeys m ↔ (dictLookup m k).isSome := by
  induction m with
  | nil => simp [dictKeys, dictLookup]
  | cons e rest ih =>
    obtain ⟨k', v'⟩ := e
    by_cases hk : k' = k
    · subst hk
      simp [dictKeys, dictLookup]
    · simp [dictKeys, dictLookup, hk, Ne.symm hk] at ih ⊢
      exact ih

theorem mem_dictSet {α : Type} {m : Dict α} {k : String} {v : α}
    {kv : String × α} (h : kv ∈ dictSet m k v) : kv = (k, v) ∨ kv ∈ m := by
  induction m with
  | nil => simpa [dictSet] using h
  | cons e rest ih =>
    obtain ⟨k', v'⟩ := e
    by_cases hk : k' = k
    · subst hk
      simp [dictSet] at h
      rcases h with h | h
      · exact Or.inl h
      · exact Or.inr (List.mem_cons_of_mem _ h)
    · simp [dictSet, hk] at h
      rcases h with h | h
      · exact Or.inr (by simp [h])
      · rcases ih h with h' | h'
        · exact Or.inl h'
        · exact Or.inr (List.mem_cons_of_mem _ h')

theorem dictLookup_dictSet_self {α : Type} {m : Dict α} {k : String} {v : α} :
    dictLookup (dictSet m k v) k = some v := by
  induction m with
  | nil => simp [dictSet, dictLookup]
  | cons e rest ih =>
    obtain ⟨k', v'⟩ := e
    by_cases hk : k' = k
    · subst hk; simp [dictSet, dictLookup]
    · simp [dictSet, dictLookup, hk, ih]

theorem dictLookup_dictSet_ne {α : Type} {m : Dict α} {k k' : String} {v : α}
    (h : k' ≠ k) : dictLookup (dictSet m k v) k' = dictLookup m k' := by
  induction m with
  | nil => simp [dictSet, dictLookup, Ne.symm h]
  | cons e rest ih =>
    obtain ⟨k'', v''⟩ := e
    by_cases hk : k'' = k
    · subst hk
      simp [dictSet, dictLookup, Ne.symm h]
    · simp [dictSet, dictLookup, hk, ih]

theorem mem_dictKeys_dictSet {α : Type} {m : Dict α} {k k' : String} {v : α} :
    k' ∈ dictKeys (dictSet m k v) ↔ k' = k ∨ k' ∈ dictKeys m := by
  constructor
  · intro h
    rw [mem_dictKeys] at h
    by_cases hk : k' = k
    · exact Or.inl hk
    · rw [dictLookup_dictSet_ne hk] at h
      exact Or.inr (mem_dictKeys.mpr h)
  · intro h
    rw [mem_dictKeys]
    rcases h with h | h
    · subst h; simp [dictLookup_dictSet_self]
    · by_cases hk : k' = k
      · subst hk; simp [dictLookup_dictSet_self]
      · rw [dictLookup_dictSet_ne hk]
        exact mem_dictKeys.mp h

theorem mem_dictDel {α : Type} {m : Dict α} {k : String} {kv : String × α}
    (h : kv ∈ dictDel m k) : kv ∈ m := by
  induction m with
  | nil => simpa [dictDel] using h
  | cons e rest ih =>
    obtain ⟨k', v'⟩ := e
    by_cases hk : k' = k
    · subst hk
      simp [dictDel] at h
      exact List.mem_cons_of_mem _ h
    · simp [dictDel, hk] at h
      rcases h with h | h
      · simp [h]
      · exact List.mem_cons_of_mem _ (ih h)

theorem mem_dictKeys_dictDel {α : Type} {m : Dict α} {k k' : String}
    (h : k' ∈ dictKeys (dictDel m k)) : k' ∈ dictKeys m := by
  simp only [dictKeys, List.mem_map] at h ⊢
  obtain ⟨kv, hkv, rfl⟩ := h
  exact ⟨kv, mem_dictDel hkv, rfl⟩

theorem not_mem_dictKeys_dictDel_self {α : Type} {m : Dict α} {k : String}
    (h : (dictKeys m).Nodup) : k ∉ dictKeys (dictDel m k) := by
  induction m with
  | nil => simp [dictDel, dictKeys]
  | cons e rest ih =>
    obtain ⟨k', v'⟩ := e
    simp only [dictKeys, List.map_cons, List.nodup_cons] at h
    by_cases hk : k' = k
    · subst hk
      simp only [dictDel, if_pos rfl]
      intro hmem
      exact h.1 hmem
    · simp only [dictDel, if_neg hk, dictKeys, List.map_cons, List.mem_cons]
      rintro (rfl | hmem)
      · exact hk rfl
      · exact ih h.2 hmem

theorem mem_dictUpdate {α : Type} {m o : Dict α} {kv : String × α}
    (h : kv ∈ dictUpdate m o) : kv ∈ m ∨ kv ∈ o := by
  induction o generalizing m with
  | nil => exact Or.inl h
  | cons e rest ih =>
    have h' : kv ∈ dictUpdate (dictSet m e.1 e.2) rest := h
    rcases ih h' with h'' | h''
    · rcases mem_dictSet h'' with h3 | h3
      · exact Or.inr (by simp [h3])
      · exact Or.inl h3
    · exact Or.inr (List.mem_cons_of_mem _ h'')

theorem dictLookup_dictUpdate_not_mem {α : Type} {m o : Dict α} {k : String}
    (h : k ∉ dictKeys o) : dictLookup (dictUpdate m o) k = dictLookup m k := by
  induction o generalizing m with
  | nil => rfl
  | cons e rest ih =>
    simp only [dictKeys, List.map_cons, List.mem_cons] at h
    push_neg at h
    have step : dictUpdate m (e :: rest) = dictUpdate (dictSet m e.1 e.2) rest := rfl
    rw [step, ih (by simpa [dictKeys] using h.2), dictLookup_dictSet_ne h.1]

theorem nodup_dictSet {α : Type} {m : Dict α} {k : String} {v : α}
    (h : (dictKeys m).Nodup) : (dictKeys (dictSet m k v)).Nodup := by
  induction m with
  | nil => simp [dictSet, dictKeys]
  | cons e rest ih =>
    obtain ⟨k', v'⟩ := e
    simp only [dictKeys, List.map_cons, List.nodup_cons] at h
    by_cases hk : k' = k
    · subst hk
      simpa [dictSet, dictKeys, List.nodup_cons] using h
    · simp only [dictSet, if_neg hk, dictKeys, List.map_cons, List.nodup_cons]
      refine ⟨fun hmem => ?_, ih h.2⟩
      rcases mem_dictKeys_dictSet.mp hmem with h3 | h3
      · exact hk h3
      · exact h.1 h3

theorem nodup_dictUpdate {α : Type} {m o : Dict α}
    (h : (dictKeys m).Nodup) : (dictKeys (dictUpdate m o)).Nodup := by
  induction o generalizing m with
  | nil => exact h
  | cons e rest ih => exact ih (nodup_dictSet h)

/-! ### Lemmas about the option-valued comprehensions and Python `min` -/

theorem optFilter_isSome {α : Type} {f : α → Option Bool} {l : List α}
    (h : ∀ x ∈ l, (f x).isSome) : ∃ r, optFilter f l = some r := by
  induction l with
  | nil => exact ⟨[], rfl⟩
  | cons x xs ih =>
    obtain ⟨b, hb⟩ := Option.isSome_iff_exists.mp (h x (by simp))
    obtain ⟨r, hr⟩ := ih fun y hy => h y (List.mem_cons_of_mem _ hy)
    exact ⟨if b then x :: r else r, by simp [optFilter, hb, hr]⟩

theorem optFilter_eq_filter {α : Type} {f : α → Option Bool} {l r : List α}
    (h : optFilter f l = some r) : r = l.filter fun x => f x == some true := by
  induction l generalizing r with
  | nil =>
    simp [optFilter] at h
    subst h
    simp
  | cons x xs ih =>
    simp only [optFilter] at h
    cases hb : f x with
    | none => rw [hb] at h; exact absurd h (by simp)
    | some b =>
      rw [hb] at h
      cases hr : optFilter f xs with
      | none => rw [hr] at h; exact absurd h (by simp)
      | some r' =>
        rw [hr] at h
        simp only [Option.some.injEq] at h
        subst h
        cases b <;> simp [List.filter_cons, hb, ih hr]

theorem mem_optFilter {α : Type} {f : α → Option Bool} {l r : List α} {c : α}
    (h : optFilter f l = some r) : c ∈ r ↔ c ∈ l ∧ f c = some true := by
  rw [optFilter_eq_filter h]
  simp [List.mem_filter]

theorem optMapList_isSome {α β : Type} {f : α → Option β} {l : List α}
    (h : ∀ x ∈ l, (f x).isSome) : ∃ r, optMapList f l = some r := by
  induction l with
  | nil => exact ⟨[], rfl⟩
  | cons x xs ih =>
    obtain ⟨y, hy⟩ := Option.isSome_iff_exists.mp (h x (by simp))
    obtain ⟨r, hr⟩ := ih fun z hz => h z (List.mem_cons_of_mem _ hz)
    exact ⟨y :: r, by simp [optMapList, hy, hr]⟩

theorem mem_optMapList {α β : Type} {f : α → Option β} {l : List α} {r : List β}
    {y : β} (h : optMapList f l = some r) : y ∈ r ↔ ∃ x ∈ l, f x = some y := by
  induction l generalizing r with
  | nil =>
    simp [optMapList] at h
    subst h
    simp
  | cons x xs ih =>
    simp only [optMapList] at h
    cases hy : f x with
    | none => simp [hy] at h
    | some y' =>
      rw [hy] at h
      cases hr : optMapList f xs with
      | none => simp [hr] at h
      | some r' =>
        rw [hr] at h
        simp only [Option.some.injEq] at h
        subst h
        simp only [List.mem_cons, ih hr]
        constructor
        · rintro (rfl | ⟨x', hx', hfx'⟩)
          · exact ⟨x, Or.inl rfl, hy⟩
          · exact ⟨x', Or.inr hx', hfx'⟩
        · rintro ⟨x', rfl | hx', hfx'⟩
          · rw [hy] at hfx'
            exact Or.inl (Option.some.inj hfx').symm
          · exact Or.inr ⟨x', hx', hfx'⟩

theorem foldl_min_le_init {xs : List Nat} {a : Nat} : xs.foldl Nat.min a ≤ a := by
  induction xs generalizing a with
  | nil => exact Nat.le_refl a
  | cons b xs ih => exact le_trans ih (Nat.min_le_left a b)

theorem foldl_min_le {xs : List Nat} {a x : Nat} (h : x ∈ a :: xs) :
    xs.foldl Nat.min a ≤ x := by
  induction xs generalizing a with
  | nil =>
    simp at h
    simp [h]
  | cons b xs ih =>
    simp only [List.foldl_cons]
    simp only [List.mem_cons] at h
    rcases h with rfl | rfl | h
    · exact le_trans foldl_min_le_init (Nat.min_le_left _ _)
    · exact le_trans foldl_min_le_init (Nat.min_le_right _ _)
    · exact ih (List.mem_cons_of_mem _ h)

theorem foldl_min_mem {xs : List Nat} {a : Nat} : xs.foldl Nat.min a ∈ a :: xs := by
  induction xs generalizing a with
  | nil => simp
  | cons b xs ih =>
    simp only [List.foldl_cons]
    have h := @ih (Nat.min a b)
    simp only [List.mem_cons] at h ⊢
    rcases h with h | h
    · have hm : Nat.min a b = a ∨ Nat.min a b = b := by
        rcases Nat.le_total a b with hab | hab
        · exact Or.inl (Nat.min_eq_left hab)
        · exact Or.inr (Nat.min_eq_right hab)
      rcases hm with hm | hm
      · exact Or.inl (h.trans hm)
      · exact Or.inr (Or.inl (h.trans hm))
    · exact Or.inr (Or.inr h)

theorem pyMin_spec {l : List Nat} {v : Nat} (h : pyMin l = some v) :
    v ∈ l ∧ ∀ x ∈ l, v ≤ x := by
  cases l with
  | nil => simp [pyMin] at h
  | cons a xs =>
    simp only [pyMin, Option.some.injEq] at h
    subst h
    exact ⟨foldl_min_mem, fun x hx => foldl_min_le hx⟩

theorem pyMin_isSome {l : List Nat} (h : l ≠ []) : (pyMin l).isSome := by
  cases l with
  | nil => exact absurd rfl h
  | cons a xs => simp [pyMin]

theorem pyMin_eq_some {l : List Nat} {v : Nat} (hmem : v ∈ l)
    (hle : ∀ x ∈ l, v ≤ x) : pyMin l = some v := by
  obtain ⟨w, hw⟩ := Option.isSome_iff_exists.mp
    (pyMin_isSome (l := l) (by rintro rfl; simp at hmem))
  obtain ⟨hwmem, hwle⟩ := pyMin_spec hw
  have : w = v := Nat.le_antisymm (hwle v hmem) (hle w hwmem)
  rw [hw, this]

/-! ### Lemmas about the merge step of the resolver -/

theorem getDeg_eq {m : AncMap} {k : String} {v : List Nat}
    (h : dictLookup m k = some v) : getDeg m k = v := by
  simp [getDeg, h]

theorem mapOK_nil {K : String → Prop} {P : Nat → Prop} : MapOK K P [] := by
  intro kv hkv
  simp at hkv

theorem mapOK_dictSet {K : String → Prop} {P : Nat → Prop} {m : AncMap}
    {k : String} {v : List Nat} (h : MapOK K P m) (hK : K k) (hne : v ≠ [])
    (hP : ∀ x ∈ v, P x) : MapOK K P (dictSet m k v) := by
  intro kv hkv
  rcases mem_dictSet hkv with rfl | hkv'
  · exact ⟨hK, hne, hP⟩
  · exact h kv hkv'

theorem mapOK_dictDel {K : String → Prop} {P : Nat → Prop} {m : AncMap}
    {k : String} (h : MapOK K P m) : MapOK K P (dictDel m k) :=
  fun kv hkv => h kv (mem_dictDel hkv)

theorem mapOK_dictUpdate {K : String → Prop} {P : Nat → Prop} {m o : AncMap}
    (hm : MapOK K P m) (ho : MapOK K P o) : MapOK K P (dictUpdate m o) := by
  intro kv hkv
  rcases mem_dictUpdate hkv with h | h
  · exact hm kv h
  · exact ho kv h

theorem mapOK_getDeg {K : String → Prop} {P : Nat → Prop} {m : AncMap}
    {k : String} (h : MapOK K P m) : ∀ x ∈ getDeg m k, P x := by
  intro x hx
  cases hl : dictLookup m k with
  | none => rw [getDeg, hl] at hx; simp at hx
  | some v =>
    rw [getDeg_eq hl] at hx
    exact (h (k, v) (dictLookup_mem hl)).2.2 x hx

theorem mapOK_getDeg_ne {K : String → Prop} {P : Nat → Prop} {m : AncMap}
    {k : String} (h : MapOK K P m) (hk : k ∈ dictKeys m) : getDeg m k ≠ [] := by
  obtain ⟨v, hv⟩ := Option.isSome_iff_exists.mp (mem_dictKeys.mp hk)
  rw [getDeg_eq hv]
  exact (h (k, v) (dictLookup_mem hv)).2.1

theorem mapOK_mono {K K' : String → Prop} {P P' : Nat → Prop} {m : AncMap}
    (h : MapOK K P m) (hK : ∀ s, K s → K' s) (hP : ∀ n, P n → P' n) :
    MapOK K' P' m := by
  intro kv hkv
  obtain ⟨h1, h2, h3⟩ := h kv hkv
  exact ⟨hK _ h1, h2, fun x hx => hP x (h3 x hx)⟩

theorem mergeParents_mapOK {K : String → Prop} {P : Nat → Prop}
    {parent1 parent2 : String} {d : Nat} {m1 m2 : AncMap}
    (hm1 : MapOK K P m1) (hm2 : MapOK K P m2) (hk1 : K parent1) (hk2 : K parent2)
    (hd : P d) : MapOK K P (mergeParents parent1 parent2 d m1 m2) := by
  have hanc0 : MapOK K P (dictSet (dictSet [] parent1 [d]) parent2 [d]) :=
    mapOK_dictSet (mapOK_dictSet mapOK_nil hk1 (by simp) (by simpa using hd))
      hk2 (by simp) (by simpa using hd)
  have hp1anc0 : parent1 ∈ dictKeys (dictSet (dictSet [] parent1 [d]) parent2 [d]) := by
    by_cases hpp : parent1 = parent2
    · exact mem_dictKeys_dictSet.mpr (Or.inl hpp)
    · exact mem_dictKeys_dictSet.mpr
        (Or.inr (mem_dictKeys_dictSet.mpr (Or.inl rfl)))
  have hp2anc0 : parent2 ∈ dictKeys (dictSet (dictSet [] parent1 [d]) parent2 [d]) :=
    mem_dictKeys_dictSet.mpr (Or.inl rfl)
  unfold mergeParents
  cases h1 : dictLookup m1 parent2 with
  | none =>
    cases h2 : dictLookup m2 parent1 with
    | none =>
      simp only [h1, h2]
      refine mapOK_dictUpdate (mapOK_dictUpdate ?_ hm1) hm2
      refine mapOK_dictSet (mapOK_dictSet hanc0 hk1 ?_ ?_) hk2 ?_ ?_
      · simpa using mapOK_getDeg_ne hanc0 hp1anc0
      · intro x hx
        exact mapOK_getDeg hanc0 x (List.mem_dedup.mp hx)
      · have hdeg := mapOK_dictSet hanc0 hk1
          (by simpa using mapOK_getDeg_ne hanc0 hp1anc0)
          (fun x hx => mapOK_getDeg hanc0 x (List.mem_dedup.mp hx))
        simpa using mapOK_getDeg_ne hdeg
          (mem_dictKeys_dictSet.mpr (Or.inr hp2anc0))
      · intro x hx
        have hdeg := mapOK_dictSet hanc0 hk1
          (by simpa using mapOK_getDeg_ne hanc0 hp1anc0)
          (fun x hx => mapOK_getDeg hanc0 x (List.mem_dedup.mp hx))
        exact mapOK_getDeg hdeg x (List.mem_dedup.mp hx)
    | some ds2 =>
      simp only [h1, h2]
      have hds2 := hm2 (parent1, ds2) (dictLookup_mem h2)
      have hstep : MapOK K P (dictSet (dictSet (dictSet [] parent1 [d]) parent2 [d])
          parent1 (getDeg (dictSet (dictSet [] parent1 [d]) parent2 [d]) parent1 ++ ds2)) := by
        refine mapOK_dictSet hanc0 hk1 ?_ ?_
        · simp only [ne_eq, List.append_eq_nil]
          rintro ⟨-, h⟩
          exact hds2.2.1 h
        · intro x hx
          rcases List.mem_append.mp hx with hx | hx
          · exact mapOK_getDeg hanc0 x hx
          · exact hds2.2.2 x hx
      refine mapOK_dictUpdate (mapOK_dictUpdate ?_ hm1) (mapOK_dictDel hm2)
      have hp1step : parent1 ∈ dictKeys (dictSet (dictSet (dictSet [] parent1 [d]) parent2 [d])
          parent1 (getDeg (dictSet (dictSet [] parent1 [d]) parent2 [d]) parent1 ++ ds2)) :=
        mem_dictKeys_dictSet.mpr (Or.inl rfl)
      refine mapOK_dictSet (mapOK_dictSet hstep hk1 ?_ ?_) hk2 ?_ ?_
      · simpa using mapOK_getDeg_ne hstep hp1step
      · intro x hx
        exact mapOK_getDeg hstep x (List.mem_dedup.mp hx)
      · have hdeg := mapOK_dictSet hstep hk1
          (by simpa using mapOK_getDeg_ne hstep hp1step)
          (fun x hx => mapOK_getDeg hstep x (List.mem_dedup.mp hx))
        simpa using mapOK_getDeg_ne hdeg (mem_dictKeys_dictSet.mpr
          (Or.inr (mem_dictKeys_dictSet.mpr (Or.inr hp2anc0))))
      · intro x hx
        have hdeg := mapOK_dictSet hstep hk1
          (by simpa using mapOK_getDeg_ne hstep hp1step)
          (fun x hx => mapOK_getDeg hstep x (List.mem_dedup.mp hx))
        exact mapOK_getDeg hdeg x (List.mem_dedup.mp hx)
  | some ds1 =>
    have hds1 := hm1 (parent2, ds1) (dictLookup_mem h1)
    have hstep1 : MapOK K P (dictSet (dictSet (dictSet [] parent1 [d]) parent2 [d])
        parent2 (getDeg (dictSet (dictSet [] parent1 [d]) parent2 [d]) parent2 ++ ds1)) := by
      refine mapOK_dictSet hanc0 hk2 ?_ ?_
      · simp only [ne_eq, List.append_eq_nil]
        rintro ⟨-, h⟩
        exact hds1.2.1 h
      · intro x hx
        rcases List.mem_append.mp hx with hx | hx
        · exact mapOK_getDeg hanc0 x hx
        · exact hds1.2.2 x hx
    have hp1step1 : parent1 ∈ dictKeys (dictSet (dictSet (dictSet [] parent1 [d]) parent2 [d])
        parent2 (getDeg (dictSet (dictSet [] parent1 [d]) parent2 [d]) parent2 ++ ds1)) :=
      mem_dictKeys_dictSet.mpr (Or.inr hp1anc0)
    have hp2step1 : parent2 ∈ dictKeys (dictSet (dictSet (dictSet [] parent1 [d]) parent2 [d])
        parent2 (getDeg (dictSet (dictSet [] parent1 [d]) parent2 [d]) parent2 ++ ds1)) :=
      mem_dictKeys_dictSet.mpr (Or.inl rfl)
    cases h2 : dictLookup m2 parent1 with
    | none =>
      simp only [h1, h2]
      refine mapOK_dictUpdate (mapOK_dictUpdate ?_ (mapOK_dictDel hm1)) hm2
      refine mapOK_dictSet (mapOK_dictSet hstep1 hk1 ?_ ?_) hk2 ?_ ?_
      · simpa using mapOK_getDeg_ne hstep1 hp1step1
      · intro x hx
        exact mapOK_getDeg hstep1 x (List.mem_dedup.mp hx)
      · have hdeg := mapOK_dictSet hstep1 hk1
          (by simpa using mapOK_getDeg_ne hstep1 hp1step1)
          (fun x hx => mapOK_getDeg hstep1 x (List.mem_dedup.mp hx))
        simpa using mapOK_getDeg_ne hdeg
          (mem_dictKeys_dictSet.mpr (Or.inr hp2step1))
      · intro x hx
        have hdeg := mapOK_dictSet hstep1 hk1
          (by simpa using mapOK_getDeg_ne hstep1 hp1step1)
          (fun x hx => mapOK_getDeg hstep1 x (List.mem_dedup.mp hx))
        exact mapOK_getDeg hdeg x (List.mem_dedup.mp hx)
    | some ds2 =>
      simp only [h1, h2]
      have hds2 := hm2 (parent1, ds2) (dictLookup_mem h2)
      have hstep2 : MapOK K P (dictSet (dictSet (dictSet (dictSet [] parent1 [d]) parent2 [d])
          parent2 (getDeg (dictSet (dictSet [] parent1 [d]) parent2 [d]) parent2 ++ ds1))
          parent1 (getDeg (dictSet (dictSet (dictSet [] parent1 [d]) parent2 [d])
            parent2 (getDeg (dictSet (dictSet [] parent1 [d]) parent2 [d]) parent2 ++ ds1))
            parent1 ++ ds2)) := by
        refine mapOK_dictSet hstep1 hk1 ?_ ?_
        · simp only [ne_eq, List.append_eq_nil]
          rintro ⟨-, h⟩
          exact hds2.2.1 h
        · intro x hx
          rcases List.mem_append.mp hx with hx | hx
          · exact mapOK_getDeg hstep1 x hx
          · exact hds2.2.2 x hx
      refine mapOK_dictUpdate (mapOK_dictUpdate ?_ (mapOK_dictDel hm1)) (mapOK_dictDel hm2)
      have hp1step2 : parent1 ∈ dictKeys (dictSet (dictSet (dictSet (dictSet [] parent1 [d])
          parent2 [d]) parent2 (getDeg (dictSet (dictSet [] parent1 [d]) parent2 [d])
          parent2 ++ ds1)) parent1 (getDeg (dictSet (dictSet (dictSet [] parent1 [d])
          parent2 [d]) parent2 (getDeg (dictSet (dictSet [] parent1 [d]) parent2 [d])
          parent2 ++ ds1)) parent1 ++ ds2)) :=
        mem_dictKeys_dictSet.mpr (Or.inl rfl)
      refine mapOK_dictSet (mapOK_dictSet hstep2 hk1 ?_ ?_) hk2 ?_ ?_
      · simpa using mapOK_getDeg_ne hstep2 hp1step2
      · intro x hx
        exact mapOK_getDeg hstep2 x (List.mem_dedup.mp hx)
      · have hdeg := mapOK_dictSet hstep2 hk1
          (by simpa using mapOK_getDeg_ne hstep2 hp1step2)
          (fun x hx => mapOK_getDeg hstep2 x (List.mem_dedup.mp hx))
        simpa using mapOK_getDeg_ne hdeg (mem_dictKeys_dictSet.mpr
          (Or.inr (mem_dictKeys_dictSet.mpr (Or.inr hp2step1))))
      · intro x hx
        have hdeg := mapOK_dictSet hstep2 hk1
          (by simpa using mapOK_getDeg_ne hstep2 hp1step2)
          (fun x hx => mapOK_getDeg hstep2 x (List.mem_dedup.mp hx))
        exact mapOK_getDeg hdeg x (List.mem_dedup.mp hx)

theorem mem_dictKeys_of_mem {α : Type} {m : Dict α} {kv : String × α}
    (h : kv ∈ m) : kv.1 ∈ dictKeys m :=
  List.mem_map_of_mem Prod.fst h

theorem mergeParents_entry_cases {parent1 parent2 : String} {d : Nat} {m1 m2 : AncMap}
    {kv : String × List Nat} (h : kv ∈ mergeParents parent1 parent2 d m1 m2) :
    kv.1 = parent1 ∨ kv.1 = parent2 ∨ kv ∈ m1 ∨ kv ∈ m2 := by
  unfold mergeParents at h
  cases h1 : dictLookup m1 parent2 <;> cases h2 : dictLookup m2 parent1 <;>
      simp only [h1, h2] at h <;>
    · rcases mem_dictUpdate h with h | h
      · rcases mem_dictUpdate h with h | h
        · have hk := mem_dictKeys_of_mem h
          simp only [mem_dictKeys_dictSet] at hk
          simp only [dictKeys, List.map_nil, List.not_mem_nil, or_false] at hk
          tauto
        · first
          | exact Or.inr (Or.inr (Or.inl h))
          | exact Or.inr (Or.inr (Or.inl (mem_dictDel h)))
      · first
        | exact Or.inr (Or.inr (Or.inr h))
        | exact Or.inr (Or.inr (Or.inr (mem_dictDel h)))

theorem mergeParents_nodup {parent1 parent2 : String} {d : Nat} {m1 m2 : AncMap} :
    (dictKeys (mergeParents parent1 parent2 d m1 m2)).Nodup := by
  unfold mergeParents
  cases h1 : dictLookup m1 parent2 <;> cases h2 : dictLookup m2 parent1 <;>
      simp only [h1, h2] <;>
    · apply nodup_dictUpdate
      apply nodup_dictUpdate
      repeat apply nodup_dictSet
      simp [dictKeys]

theorem lookup_of_mem_getDeg {m : AncMap} {k : String} {d : Nat}
    (h : d ∈ getDeg m k) : ∃ v, dictLookup m k = some v ∧ d ∈ v := by
  cases hl : dictLookup m k with
  | none => rw [getDeg, hl] at h; simp at h
  | some v => exact ⟨v, rfl, by rwa [getDeg_eq hl] at h⟩

theorem getDeg_dictSet_append {m : AncMap} {k q : String} {s : List Nat} {d : Nat}
    (h : d ∈ getDeg m q) : d ∈ getDeg (dictSet m k (getDeg m k ++ s)) q := by
  by_cases hqk : q = k
  · subst hqk
    rw [getDeg_eq dictLookup_dictSet_self]
    exact List.mem_append_left _ h
  · rw [getDeg, dictLookup_dictSet_ne hqk]
    exact h

theorem getDeg_dictSet_dedup {m : AncMap} {k q : String} {d : Nat}
    (h : d ∈ getDeg m q) : d ∈ getDeg (dictSet m k (getDeg m k).dedup) q := by
  by_cases hqk : q = k
  · subst hqk
    rw [getDeg_eq dictLookup_dictSet_self]
    exact List.mem_dedup.mpr h
  · rw [getDeg, dictLookup_dictSet_ne hqk]
    exact h

theorem getDeg_anc0_self1 {a b : String} {d : Nat} :
    d ∈ getDeg (dictSet (dictSet [] a [d]) b [d]) a := by
  by_cases hpp : a = b
  · subst hpp
    rw [getDeg_eq dictLookup_dictSet_self]
    simp
  · rw [getDeg, dictLookup_dictSet_ne hpp, dictLookup_dictSet_self]
    simp

theorem getDeg_anc0_self2 {a b : String} {d : Nat} :
    d ∈ getDeg (dictSet (dictSet [] a [d]) b [d]) b := by
  rw [getDeg_eq dictLookup_dictSet_self]
  simp

theorem mergeParents_lookup_parents {parent1 parent2 : String} {d : Nat} {m1 m2 : AncMap}
    (hnd1 : (dictKeys m1).Nodup) (hnd2 : (dictKeys m2).Nodup)
    (hp1 : parent1 ∉ dictKeys m1) (hp2 : parent2 ∉ dictKeys m2) :
    (∃ v, dictLookup (mergeParents parent1 parent2 d m1 m2) parent1 = some v ∧ d ∈ v) ∧
    (∃ v, dictLookup (mergeParents parent1 parent2 d m1 m2) parent2 = some v ∧ d ∈ v) := by
  have hx1 : ∀ {q : String}, q ∉ dictKeys m1 → ∀ {k : String}, q ∉ dictKeys (dictDel m1 k) :=
    fun hq _ hmem => hq (mem_dictKeys_dictDel hmem)
  have hx2 : ∀ {q : String}, q ∉ dictKeys m2 → ∀ {k : String}, q ∉ dictKeys (dictDel m2 k) :=
    fun hq _ hmem => hq (mem_dictKeys_dictDel hmem)
  unfold mergeParents
  cases h1 : dictLookup m1 parent2 with
  | none =>
    have hp2m1 : parent2 ∉ dictKeys m1 := by
      rw [mem_dictKeys, h1]
      simp
    cases h2 : dictLookup m2 parent1 with
    | none =>
      have hp1m2 : parent1 ∉ dictKeys m2 := by
        rw [mem_dictKeys, h2]
        simp
      simp only [h1, h2]
      constructor
      · obtain ⟨v, hv, hdv⟩ := lookup_of_mem_getDeg
          (getDeg_dictSet_dedup (getDeg_dictSet_dedup (getDeg_anc0_self1 (d := d)
            (a := parent1) (b := parent2))))
        exact ⟨v, by rw [dictLookup_dictUpdate_not_mem hp1m2,
          dictLookup_dictUpdate_not_mem hp1, hv], hdv⟩
      · obtain ⟨v, hv, hdv⟩ := lookup_of_mem_getDeg
          (getDeg_dictSet_dedup (getDeg_dictSet_dedup (getDeg_anc0_self2 (d := d)
            (a := parent1) (b := parent2))))
        exact ⟨v, by rw [dictLookup_dictUpdate_not_mem hp2,
          dictLookup_dictUpdate_not_mem hp2m1, hv], hdv⟩
    | some ds2 =>
      simp only [h1, h2]
      constructor
      · obtain ⟨v, hv, hdv⟩ := lookup_of_mem_getDeg
          (getDeg_dictSet_dedup (getDeg_dictSet_dedup (getDeg_dictSet_append
            (s := ds2) (getDeg_anc0_self1 (d := d) (a := parent1) (b := parent2)))))
        exact ⟨v, by rw [dictLookup_dictUpdate_not_mem (not_mem_dictKeys_dictDel_self hnd2),
          dictLookup_dictUpdate_not_mem hp1, hv], hdv⟩
      · obtain ⟨v, hv, hdv⟩ := lookup_of_mem_getDeg
          (getDeg_dictSet_dedup (getDeg_dictSet_dedup (getDeg_dictSet_append
            (s := ds2) (getDeg_anc0_self2 (d := d) (a := parent1) (b := parent2)))))
        exact ⟨v, by rw [dictLookup_dictUpdate_not_mem (hx2 hp2),
          dictLookup_dictUpdate_not_mem hp2m1, hv], hdv⟩
  | some ds1 =>
    cases h2 : dictLookup m2 parent1 with
    | none =>
      have hp1m2 : parent1 ∉ dictKeys m2 := by
        rw [mem_dictKeys, h2]
        simp
      simp only [h1, h2]
      constructor
      · obtain ⟨v, hv, hdv⟩ := lookup_of_mem_getDeg
          (getDeg_dictSet_dedup (getDeg_dictSet_dedup (getDeg_dictSet_append
            (s := ds1) (getDeg_anc0_self1 (d := d) (a := parent1) (b := parent2)))))
        exact ⟨v, by rw [dictLookup_dictUpdate_not_mem hp1m2,
          dictLookup_dictUpdate_not_mem (hx1 hp1), hv], hdv⟩
      · obtain ⟨v, hv, hdv⟩ := lookup_of_mem_getDeg
          (getDeg_dictSet_dedup (getDeg_dictSet_dedup (getDeg_dictSet_append
            (s := ds1) (getDeg_anc0_self2 (d := d) (a := parent1) (b := parent2)))))
        exact ⟨v, by rw [dictLookup_dictUpdate_not_mem hp2,
          dictLookup_dictUpdate_not_mem (not_mem_dictKeys_dictDel_self hnd1), hv], hdv⟩
    | some ds2 =>
      simp only [h1, h2]
      constructor
      · obtain ⟨v, hv, hdv⟩ := lookup_of_mem_getDeg
          (getDeg_dictSet_dedup (getDeg_dictSet_dedup (getDeg_dictSet_append
            (s := ds2) (getDeg_dictSet_append (s := ds1)
              (getDeg_anc0_self1 (d := d) (a := parent1) (b := parent2))))))
        exact ⟨v, by rw [dictLookup_dictUpdate_not_mem (not_mem_dictKeys_dictDel_self hnd2),
          dictLookup_dictUpdate_not_mem (hx1 hp1), hv], hdv⟩
      · obtain ⟨v, hv, hdv⟩ := lookup_of_mem_getDeg
          (getDeg_dictSet_dedup (getDeg_dictSet_dedup (getDeg_dictSet_append
            (s := ds2) (getDeg_dictSet_append (s := ds1)
              (getDeg_anc0_self2 (d := d) (a := parent1) (b := parent2))))))
        exact ⟨v, by rw [dictLookup_dictUpdate_not_mem (hx2 hp2),
          dictLookup_dictUpdate_not_mem (not_mem_dictKeys_dictDel_self hnd1), hv], hdv⟩

/-! ### Lemmas about the resolver -/

theorem closedB_parents {t : Store} {c p1 p2 : String}
    (h : ClosedB t = true) (hl : dictLookup t c = some (some (p1, p2))) :
    (dictLookup t p1).isSome ∧ (dictLookup t p2).isSome := by
  have hmem := dictLookup_mem hl
  rw [ClosedB, List.all_eq_true] at h
  simpa using h _ hmem

theorem rankOKB_parents {rank : String → Nat} {t : Store} {c p1 p2 : String}
    (h : RankOKB rank t = true) (hl : dictLookup t c = some (some (p1, p2))) :
    rank p1 < rank c ∧ rank p2 < rank c := by
  have hmem := dictLookup_mem hl
  rw [RankOKB, List.all_eq_true] at h
  simpa using h _ hmem

theorem _get_ancestors_stable {fuel fuel' : Nat} {t : Store} {person : String}
    {degree : Nat} {r : Option AncMap}
    (h : _get_ancestors fuel t person degree = some r) (hle : fuel ≤ fuel') :
    _get_ancestors fuel' t person degree = some r := by
  induction fuel generalizing fuel' person degree r with
  | zero => simp [_get_ancestors] at h
  | succ fuel ih =>
    cases fuel' with
    | zero => omega
    | succ fuel' =>
      have hle' : fuel ≤ fuel' := Nat.le_of_succ_le_succ hle
      simp only [_get_ancestors] at h ⊢
      cases hl : dictLookup t person with
      | none =>
        simp only [hl] at h
        exact h
      | some pars =>
        simp only [hl] at h
        cases pars with
        | none => exact h
        | some pq =>
          obtain ⟨p1, p2⟩ := pq
          show (match _get_ancestors fuel' t p1 (degree + 1),
              _get_ancestors fuel' t p2 (degree + 1) with
            | some (some m1), some (some m2) =>
              some (some (mergeParents p1 p2 degree m1 m2))
            | _, _ => none) = some r
          cases hr1 : _get_ancestors fuel t p1 (degree + 1) with
          | none =>
            simp only [hr1] at h
            exact Option.noConfusion h
          | some o1 =>
            cases o1 with
            | none =>
              simp only [hr1] at h
              exact Option.noConfusion h
            | some m1 =>
              cases hr2 : _get_ancestors fuel t p2 (degree + 1) with
              | none =>
                simp only [hr1, hr2] at h
                exact Option.noConfusion h
              | some o2 =>
                cases o2 with
                | none =>
                  simp only [hr1, hr2] at h
                  exact Option.noConfusion h
                | some m2 =>
                  simp only [hr1, hr2] at h
                  rw [ih hr1 hle', ih hr2 hle']
                  exact h

theorem _get_ancestors_inv {fuel : Nat} {t : Store} {person : String} {degree : Nat}
    {m : AncMap} (h : _get_ancestors fuel t person degree = some (some m)) :
    MapOK (fun _ => True) (fun x => degree ≤ x) m ∧ (dictKeys m).Nodup := by
  induction fuel generalizing person degree m with
  | zero => simp [_get_ancestors] at h
  | succ fuel ih =>
    simp only [_get_ancestors] at h
    cases hl : dictLookup t person with
    | none =>
      simp only [hl] at h
      exact Option.noConfusion (Option.some.inj h)
    | some pars =>
      simp only [hl] at h
      cases pars with
      | none =>
        obtain rfl : ([] : AncMap) = m := Option.some.inj (Option.some.inj h)
        exact ⟨mapOK_nil, by simp [dictKeys]⟩
      | some pq =>
        obtain ⟨p1, p2⟩ := pq
        cases hr1 : _get_ancestors fuel t p1 (degree + 1) with
        | none =>
          simp only [hr1] at h
          exact Option.noConfusion h
        | some o1 =>
          cases o1 with
          | none =>
            simp only [hr1] at h
            exact Option.noConfusion h
          | some m1 =>
            cases hr2 : _get_ancestors fuel t p2 (degree + 1) with
            | none =>
              simp only [hr1, hr2] at h
              exact Option.noConfusion h
            | some o2 =>
              cases o2 with
              | none =>
                simp only [hr1, hr2] at h
                exact Option.noConfusion h
              | some m2 =>
                simp only [hr1, hr2] at h
                obtain rfl : mergeParents p1 p2 degree m1 m2 = m :=
                  Option.some.inj (Option.some.inj h)
                have hi1 := ih hr1
                have hi2 := ih hr2
                refine ⟨?_, mergeParents_nodup⟩
                exact mergeParents_mapOK
                  (mapOK_mono hi1.1 (fun _ _ => trivial) (fun n hn => by omega))
                  (mapOK_mono hi2.1 (fun _ _ => trivial) (fun n hn => by omega))
                  trivial trivial (Nat.le_refl degree)

theorem _get_ancestors_rank {rank : String → Nat} {fuel : Nat} {t : Store}
    {person : String} {degree : Nat} {m : AncMap}
    (hrk : RankOKB rank t = true)
    (h : _get_ancestors fuel t person degree = some (some m)) :
    ∀ k ∈ dictKeys m, rank k < rank person := by
  induction fuel generalizing person degree m with
  | zero => simp [_get_ancestors] at h
  | succ fuel ih =>
    simp only [_get_ancestors] at h
    cases hl : dictLookup t person with
    | none =>
      simp only [hl] at h
      exact Option.noConfusion (Option.some.inj h)
    | some pars =>
      simp only [hl] at h
      cases pars with
      | none =>
        obtain rfl : ([] : AncMap) = m := Option.some.inj (Option.some.inj h)
        simp [dictKeys]
      | some pq =>
        obtain ⟨p1, p2⟩ := pq
        cases hr1 : _get_ancestors fuel t p1 (degree + 1) with
        | none =>
          simp only [hr1] at h
          exact Option.noConfusion h
        | some o1 =>
          cases o1 with
          | none =>
            simp only [hr1] at h
            exact Option.noConfusion h
          | some m1 =>
            cases hr2 : _get_ancestors fuel t p2 (degree + 1) with
            | none =>
              simp only [hr1, hr2] at h
              exact Option.noConfusion h
            | some o2 =>
              cases o2 with
              | none =>
                simp only [hr1, hr2] at h
                exact Option.noConfusion h
              | some m2 =>
                simp only [hr1, hr2] at h
                obtain rfl : mergeParents p1 p2 degree m1 m2 = m :=
                  Option.some.inj (Option.some.inj h)
                have hpar := rankOKB_parents hrk hl
                intro k hk
                simp only [dictKeys, List.mem_map] at hk
                obtain ⟨kv, hkv, rfl⟩ := hk
                rcases mergeParents_entry_cases hkv with h' | h' | h' | h'
                · rw [h']
                  exact hpar.1
                · rw [h']
                  exact hpar.2
                · exact lt_trans (ih hr1 _ (mem_dictKeys_of_mem h')) hpar.1
                · exact lt_trans (ih hr2 _ (mem_dictKeys_of_mem h')) hpar.2

theorem _get_ancestors_total {rank : String → Nat} {t : Store} {fuel : Nat}
    (hrk : RankOKB rank t = true) (hcl : ClosedB t = true) :
    ∀ person degree, (dictLookup t person).isSome → rank person < fuel →
      ∃ m, _get_ancestors fuel t person degree = some (some m) := by
  induction fuel with
  | zero =>
    intro person degree hmem hf
    omega
  | succ fuel ih =>
    intro person degree hmem hf
    obtain ⟨pars, hl⟩ := Option.isSome_iff_exists.mp hmem
    cases pars with
    | none => exact ⟨[], by simp [_get_ancestors, hl]⟩
    | some pq =>
      obtain ⟨p1, p2⟩ := pq
      have hpar := rankOKB_parents hrk hl
      have hclp := closedB_parents hcl hl
      obtain ⟨m1, hm1⟩ := ih p1 (degree + 1) hclp.1 (by omega)
      obtain ⟨m2, hm2⟩ := ih p2 (degree + 1) hclp.2 (by omega)
      exact ⟨mergeParents p1 p2 degree m1 m2, by simp [_get_ancestors, hl, hm1, hm2]⟩

theorem _get_ancestors_parents {rank : String → Nat} {fuel : Nat} {t : Store}
    {person p1 p2 : String} {degree : Nat} {m : AncMap}
    (hrk : RankOKB rank t = true)
    (hl : dictLookup t person = some (some (p1, p2)))
    (h : _get_ancestors fuel t person degree = some (some m)) :
    (∃ v, dictLookup m p1 = some v ∧ degree ∈ v) ∧
    (∃ v, dictLookup m p2 = some v ∧ degree ∈ v) ∧
    (∀ kv ∈ m, degree ∈ kv.2 → kv.1 = p1 ∨ kv.1 = p2) := by
  cases fuel with
  | zero => simp [_get_ancestors] at h
  | succ fuel =>
    simp only [_get_ancestors, hl] at h
    cases hr1 : _get_ancestors fuel t p1 (degree + 1) with
    | none =>
      simp only [hr1] at h
      exact Option.noConfusion h
    | some o1 =>
      cases o1 with
      | none =>
        simp only [hr1] at h
        exact Option.noConfusion h
      | some m1 =>
        cases hr2 : _get_ancestors fuel t p2 (degree + 1) with
        | none =>
          simp only [hr1, hr2] at h
          exact Option.noConfusion h
        | some o2 =>
          cases o2 with
          | none =>
            simp only [hr1, hr2] at h
            exact Option.noConfusion h
          | some m2 =>
            simp only [hr1, hr2] at h
            obtain rfl : mergeParents p1 p2 degree m1 m2 = m :=
              Option.some.inj (Option.some.inj h)
            have hi1 := _get_ancestors_inv hr1
            have hi2 := _get_ancestors_inv hr2
            have hrank1 := _get_ancestors_rank hrk hr1
            have hrank2 := _get_ancestors_rank hrk hr2
            have hp1m1 : p1 ∉ dictKeys m1 := fun hmem => lt_irrefl _ (hrank1 _ hmem)
            have hp2m2 : p2 ∉ dictKeys m2 := fun hmem => lt_irrefl _ (hrank2 _ hmem)
            obtain ⟨hA, hB⟩ := mergeParents_lookup_parents hi1.2 hi2.2 hp1m1 hp2m2
            refine ⟨hA, hB, ?_⟩
            intro kv hkv hdeg
            rcases mergeParents_entry_cases hkv with h' | h' | h' | h'
            · exact Or.inl h'
            · exact Or.inr h'
            · exfalso
              have := (hi1.1 kv h').2.2 _ hdeg
              omega
            · exfalso
              have := (hi2.1 kv h').2.2 _ hdeg
              omega

/-! ### Lemmas about the derived predicates -/

theorem get_ancestors_eq {fuel : Nat} {t : Store} {p : String} {m : AncMap}
    (hm : _get_ancestors fuel t p 0 = some (some m)) (dg : Int) :
    get_ancestors fuel t p dg =
      some ((m.filter fun kv => intIn dg kv.2 || (dg == (-1 : Int))).map Prod.fst) := by
  simp [get_ancestors, hm]

theorem get_ancestors_any {fuel : Nat} {t : Store} {p : String} {m : AncMap}
    (hm : _get_ancestors fuel t p 0 = some (some m)) :
    get_ancestors fuel t p (-1) = some (dictKeys m) := by
  rw [get_ancestors_eq hm]
  simp [dictKeys]

theorem is_ancestor_eq {fuel : Nat} {t : Store} {b : String} {m : AncMap}
    (hm : _get_ancestors fuel t b 0 = some (some m)) (a : String) :
    is_ancestor fuel t a b (-1) = some ((dictKeys m).contains a) := by
  simp [is_ancestor, get_ancestors_any hm]

theorem is_unrelated_eq {fuel : Nat} {t : Store} {x y : String} {mx my : AncMap}
    (hmx : _get_ancestors fuel t x 0 = some (some mx))
    (hmy : _get_ancestors fuel t y 0 = some (some my)) :
    is_unrelated fuel t x y =
      some (!((dictKeys mx).contains y || (dictKeys my).contains x || (x == y)
        || interB (dictKeys mx) (dictKeys my))) := by
  simp [is_unrelated, get_ancestors_any hmx, get_ancestors_any hmy]

theorem cousinFilter_eq {fuel : Nat} {t : Store} {person name : String}
    {bu b1 b2 : Bool}
    (hu : is_unrelated fuel t name person = some bu)
    (hb1 : is_ancestor fuel t name person (-1) = some b1)
    (hb2 : is_ancestor fuel t person name (-1) = some b2) :
    cousinFilter fuel t person name = some ((!(name == person)) && !bu && !b1 && !b2) := by
  by_cases hne : name = person
  · subst hne
    simp [cousinFilter]
  · have hbeq : (name == person) = false := by simp [hne]
    simp only [cousinFilter, if_neg hne, hu, hb1, hb2]
    cases bu <;> cases b1 <;> cases b2 <;> simp [hbeq]

theorem contains_iff_mem {l : List String} {a : String} :
    l.contains a = true ↔ a ∈ l :=
  List.elem_iff

theorem interB_iff {a b : List String} :
    interB a b = true ↔ ∃ x, x ∈ a ∧ x ∈ b := by
  simp only [interB, List.any_eq_true, contains_iff_mem]

theorem intIn_natCast_iff {ds : List Nat} {d : Nat} :
    intIn (d : Int) ds = true ↔ d ∈ ds := by
  simp only [intIn, List.any_eq_true, beq_iff_eq]
  constructor
  · rintro ⟨x, hx, he⟩
    have : x = d := by exact_mod_cast he
    exact this ▸ hx
  · intro h
    exact ⟨d, h, rfl⟩

theorem intIn_zero_iff {u : List Nat} : intIn (0 : Int) u = true ↔ (0 : Nat) ∈ u := by
  simp only [intIn, List.any_eq_true, beq_iff_eq]
  constructor
  · rintro ⟨x, hx, he⟩
    have hx0 : x = 0 := by exact_mod_cast he
    exact hx0 ▸ hx
  · intro h
    exact ⟨0, h, by simp⟩

theorem natCast_beq_neg_one {d : Nat} : ((d : Int) == (-1 : Int)) = false := by
  rw [beq_eq_false_iff_ne]
  intro h
  omega

theorem perAncestorMin_iff {mp mc : AncMap} {k : String} {d : Nat} :
    perAncestorMin mp mc k = some d ↔
      ∃ a b, (∃ u, dictLookup mp k = some u ∧ a ∈ u ∧ ∀ x ∈ u, a ≤ x) ∧
        (∃ u, dictLookup mc k = some u ∧ b ∈ u ∧ ∀ x ∈ u, b ≤ x) ∧
        Nat.min a b = d := by
  constructor
  · intro h
    unfold perAncestorMin at h
    cases hp : dictLookup mp k with
    | none => rw [hp] at h; exact Option.noConfusion h
    | some dsp =>
      cases hc : dictLookup mc k with
      | none => simp only [hp, hc] at h; exact Option.noConfusion h
      | some dsc =>
        simp only [hp, hc] at h
        cases hma : pyMin dsp with
        | none => simp only [hma] at h; exact Option.noConfusion h
        | some a =>
          cases hmb : pyMin dsc with
          | none => simp only [hma, hmb] at h; exact Option.noConfusion h
          | some b =>
            simp only [hma, hmb] at h
            obtain ⟨hamem, hale⟩ := pyMin_spec hma
            obtain ⟨hbmem, hble⟩ := pyMin_spec hmb
            exact ⟨a, b, ⟨dsp, rfl, hamem, hale⟩, ⟨dsc, rfl, hbmem, hble⟩,
              Option.some.inj h⟩
  · rintro ⟨a, b, ⟨u, hu, hau, haleu⟩, ⟨w, hw, hbw, hblew⟩, hmin⟩
    unfold perAncestorMin
    rw [hu, hw]
    simp [pyMin_eq_some hau haleu, pyMin_eq_some hbw hblew, hmin]

theorem cousinDegreeOf_eq {fuel : Nat} {t : Store} {p c : String} {mp mc : AncMap}
    (hmp : _get_ancestors fuel t p 0 = some (some mp))
    (hmc : _get_ancestors fuel t c 0 = some (some mc)) :
    cousinDegreeOf fuel t p c =
      match optMapList (perAncestorMin mp mc)
          ((dictKeys mp).filter fun k => (dictKeys mc).contains k) with
      | none => none
      | some vals => pyMin vals := by
  simp [cousinDegreeOf, hmp, hmc]

theorem common_mins_some {fuel : Nat} {t : Store} {p c : String} {mp mc : AncMap}
    (hmp : _get_ancestors fuel t p 0 = some (some mp))
    (hmc : _get_ancestors fuel t c 0 = some (some mc)) :
    ∃ vals, optMapList (perAncestorMin mp mc)
        ((dictKeys mp).filter fun k => (dictKeys mc).contains k) = some vals := by
  apply optMapList_isSome
  intro k hk
  simp only [List.mem_filter, contains_iff_mem] at hk
  obtain ⟨u, hu⟩ := Option.isSome_iff_exists.mp (mem_dictKeys.mp hk.1)
  obtain ⟨w, hw⟩ := Option.isSome_iff_exists.mp (mem_dictKeys.mp hk.2)
  have hune : u ≠ [] := ((_get_ancestors_inv hmp).1 (k, u) (dictLookup_mem hu)).2.1
  have hwne : w ≠ [] := ((_get_ancestors_inv hmc).1 (k, w) (dictLookup_mem hw)).2.1
  obtain ⟨a, ha⟩ := Option.isSome_iff_exists.mp (pyMin_isSome hune)
  obtain ⟨b, hb⟩ := Option.isSome_iff_exists.mp (pyMin_isSome hwne)
  unfold perAncestorMin
  rw [hu, hw]
  simp [ha, hb]

theorem cousinFilter_isSome {t : Store} {rank : String → Nat} {fuel : Nat}
    (hrk : RankOKB rank t = true) (hcl : ClosedB t = true)
    (hfl : ∀ q ∈ dictKeys t, rank q < fuel) {p : String} (hp : p ∈ dictKeys t) :
    ∀ name ∈ dictKeys t, (cousinFilter fuel t p name).isSome := by
  intro name hname
  obtain ⟨mn, hmn⟩ := _get_ancestors_total hrk hcl name 0 (mem_dictKeys.mp hname)
    (hfl _ hname)
  obtain ⟨mp, hmp⟩ := _get_ancestors_total hrk hcl p 0 (mem_dictKeys.mp hp) (hfl _ hp)
  rw [cousinFilter_eq (is_unrelated_eq hmn hmp) (is_ancestor_eq hmp name)
    (is_ancestor_eq hmn p)]
  simp

theorem cousinFilter_true_parts {fuel : Nat} {t : Store} {person name : String}
    {bu b1 b2 : Bool}
    (hu : is_unrelated fuel t name person = some bu)
    (hb1 : is_ancestor fuel t name person (-1) = some b1)
    (hb2 : is_ancestor fuel t person name (-1) = some b2)
    (h : cousinFilter fuel t person name = some true) :
    name ≠ person ∧ bu = false ∧ b1 = false ∧ b2 = false := by
  rw [cousinFilter_eq hu hb1 hb2] at h
  have h' := Option.some.inj h
  by_cases hne : name = person
  · rw [hne] at h'
    simp at h'
  · have hbeq : (name == person) = false := by simp [hne]
    rw [hbeq] at h'
    cases bu <;> cases b1 <;> cases b2 <;> simp_all

theorem cousinDegreeOf_isSome_of_candidate {t : Store} {rank : String → Nat}
    {fuel : Nat} (hrk : RankOKB rank t = true) (hcl : ClosedB t = true)
    (hfl : ∀ q ∈ dictKeys t, rank q < fuel) {p c : String}
    (hp : p ∈ dictKeys t) (hc : c ∈ dictKeys t)
    (hfil : cousinFilter fuel t p c = some true) :
    ∃ mp mc, _get_ancestors fuel t p 0 = some (some mp) ∧
      _get_ancestors fuel t c 0 = some (some mc) ∧
      ((dictKeys mp).filter fun k => (dictKeys mc).contains k) ≠ [] ∧
      ∃ dc, cousinDegreeOf fuel t p c = some dc := by
  obtain ⟨mp, hmp⟩ := _get_ancestors_total hrk hcl p 0 (mem_dictKeys.mp hp) (hfl _ hp)
  obtain ⟨mc, hmc⟩ := _get_ancestors_total hrk hcl c 0 (mem_dictKeys.mp hc) (hfl _ hc)
  obtain ⟨hne, hbu, hb1, hb2⟩ := cousinFilter_true_parts (is_unrelated_eq hmc hmp)
    (is_ancestor_eq hmp c) (is_ancestor_eq hmc p) hfil
  have hinter : interB (dictKeys mc) (dictKeys mp) = true := by
    have hbeq : (c == p) = false := by simp [hne]
    simp only [Bool.not_eq_false', Bool.or_eq_true] at hbu
    rcases hbu with ((hx | hx) | hx) | hx
    · rw [contains_iff_mem] at hx
      exact absurd (contains_iff_mem.mpr hx) (by rw [hb2]; simp)
    · exact absurd hx (by rw [hb1]; simp)
    · rw [hbeq] at hx
      exact Bool.noConfusion hx
    · exact hx
  obtain ⟨k, hkmc, hkmp⟩ := interB_iff.mp hinter
  have hkcommon : k ∈ (dictKeys mp).filter fun k => (dictKeys mc).contains k := by
    simp only [List.mem_filter, contains_iff_mem]
    exact ⟨hkmp, hkmc⟩
  obtain ⟨vals, hvals⟩ := common_mins_some hmp hmc
  have hkin : (perAncestorMin mp mc k).isSome := by
    obtain ⟨u, hu⟩ := Option.isSome_iff_exists.mp (mem_dictKeys.mp hkmp)
    obtain ⟨w, hw⟩ := Option.isSome_iff_exists.mp (mem_dictKeys.mp hkmc)
    have hune : u ≠ [] := ((_get_ancestors_inv hmp).1 (k, u) (dictLookup_mem hu)).2.1
    have hwne : w ≠ [] := ((_get_ancestors_inv hmc).1 (k, w) (dictLookup_mem hw)).2.1
    obtain ⟨a, ha⟩ := Option.isSome_iff_exists.mp (pyMin_isSome hune)
    obtain ⟨b, hb⟩ := Option.isSome_iff_exists.mp (pyMin_isSome hwne)
    unfold perAncestorMin
    rw [hu, hw]
    simp [ha, hb]
  obtain ⟨vk, hvk⟩ := Option.isSome_iff_exists.mp hkin
  have hvkmem : vk ∈ vals := (mem_optMapList hvals).mpr ⟨k, hkcommon, hvk⟩
  have hvalsne : vals ≠ [] := by
    rintro rfl
    simp at hvkmem
  obtain ⟨dmin, hdmin⟩ := Option.isSome_iff_exists.mp (pyMin_isSome hvalsne)
  refine ⟨mp, mc, hmp, hmc, ?_, dmin, ?_⟩
  · rintro hnil
    rw [hnil] at hkcommon
    simp at hkcommon
  · rw [cousinDegreeOf_eq hmp hmc, hvals]
    exact hdmin

theorem get_cousins_char {t : Store} {rank : String → Nat} {fuel : Nat}
    (hrk : RankOKB rank t = true) (hcl : ClosedB t = true)
    (hfl : ∀ q ∈ dictKeys t, rank q < fuel) {p : String} (hp : p ∈ dictKeys t) :
    ∃ ac, optFilter (cousinFilter fuel t p) (dictKeys t) = some ac ∧
      get_cousins fuel t p (-1) = some ac ∧
      ∀ d : Nat, ∃ l, get_cousins fuel t p (d : Int) = some l ∧
        ∀ c, (c ∈ l ↔ c ∈ ac ∧ cousinDegreeOf fuel t p c = some d) := by
  obtain ⟨ac, hac⟩ := optFilter_isSome (cousinFilter_isSome hrk hcl hfl hp)
  refine ⟨ac, hac, ?_, ?_⟩
  · simp [get_cousins, hac]
  · intro d
    have hinner : ∀ c ∈ ac,
        ((match cousinDegreeOf fuel t p c with
          | none => none
          | some cd => some ((cd : Int) == (d : Int))) : Option Bool).isSome := by
      intro c hcmem
      have hcfil := (mem_optFilter hac).mp hcmem
      obtain ⟨mp, mc, _, _, _, dc, hdc⟩ := cousinDegreeOf_isSome_of_candidate hrk hcl hfl
        hp hcfil.1 hcfil.2
      rw [hdc]
      simp
    obtain ⟨l, hl⟩ := optFilter_isSome hinner
    have hgc : get_cousins fuel t p (d : Int) = some l := by
      simp only [get_cousins, hac, natCast_beq_neg_one]
      exact hl
    refine ⟨l, hgc, ?_⟩
    intro c
    rw [mem_optFilter hl]
    constructor
    · rintro ⟨hcmem, heq⟩
      refine ⟨hcmem, ?_⟩
      cases hdc : cousinDegreeOf fuel t p c with
      | none => rw [hdc] at heq; exact Option.noConfusion heq
      | some cd =>
        rw [hdc] at heq
        have : ((cd : Int) == (d : Int)) = true := Option.some.inj heq
        have : (cd : Int) = (d : Int) := by simpa using this
        have : cd = d := by exact_mod_cast this
        rw [this]
    · rintro ⟨hcmem, hdc⟩
      refine ⟨hcmem, ?_⟩
      rw [hdc]
      simp

/-! ### Lemmas about store evolution under insertion commands -/

theorem dictSet_absent {t : Store} {k : String} {v : Option (String × String)}
    (h : dictLookup t k = none) : dictSet t k v = t ++ [(k, v)] := by
  induction t with
  | nil => rfl
  | cons e rest ih =>
    obtain ⟨k', w⟩ := e
    by_cases hk : k' = k
    · subst hk
      simp [dictLookup] at h
    · simp only [dictLookup, if_neg hk] at h
      simp [dictSet, hk, ih h]

theorem dictLookup_append_left {t l : Store} {q : String}
    (h : (dictLookup t q).isSome) : dictLookup (t ++ l) q = dictLookup t q := by
  induction t with
  | nil => simp [dictLookup] at h
  | cons e rest ih =>
    obtain ⟨k', w⟩ := e
    by_cases hk : k' = q
    · subst hk
      simp [dictLookup]
    · simp only [dictLookup, if_neg hk] at h ⊢
      exact ih h

theorem posIn_cons_ne {e : String × Option (String × String)} {t : Store} {q : String}
    (h : e.1 ≠ q) : posIn (e :: t) q = posIn t q + 1 := by
  have hbeq : (e.1 == q) = false := beq_eq_false_iff_ne.mpr h
  simp [posIn, List.findIdx_cons, hbeq]

theorem posIn_cons_self {e : String × Option (String × String)} {t : Store} {q : String}
    (h : e.1 = q) : posIn (e :: t) q = 0 := by
  simp [posIn, List.findIdx_cons, h]

theorem posIn_append_left {t l : Store} {q : String} (h : q ∈ dictKeys t) :
    posIn (t ++ l) q = posIn t q := by
  induction t with
  | nil => simp [dictKeys] at h
  | cons e rest ih =>
    by_cases hk : e.1 = q
    · rw [List.cons_append, posIn_cons_self hk, posIn_cons_self hk]
    · rw [List.cons_append, posIn_cons_ne hk, posIn_cons_ne hk]
      have hmem : q ∈ dictKeys rest := by
        simp only [dictKeys, List.map_cons, List.mem_cons] at h
        rcases h with h | h
        · exact absurd h.symm hk
        · exact h
      rw [ih hmem]

theorem posIn_lt_length {t : Store} {q : String} (h : q ∈ dictKeys t) :
    posIn t q < t.length := by
  induction t with
  | nil => simp [dictKeys] at h
  | cons e rest ih =>
    by_cases hk : e.1 = q
    · rw [posIn_cons_self hk]
      simp
    · rw [posIn_cons_ne hk]
      have hmem : q ∈ dictKeys rest := by
        simp only [dictKeys, List.map_cons, List.mem_cons] at h
        rcases h with h | h
        · exact absurd h.symm hk
        · exact h
      simpa [List.length_cons] using Nat.succ_lt_succ (ih hmem)

theorem posIn_append_fresh {t : Store} {q : String} {v : Option (String × String)}
    (h : dictLookup t q = none) : posIn (t ++ [(q, v)]) q = t.length := by
  induction t with
  | nil => simp [posIn, List.findIdx_cons]
  | cons e rest ih =>
    obtain ⟨k', w⟩ := e
    by_cases hk : k' = q
    · subst hk
      simp [dictLookup] at h
    · simp only [dictLookup, if_neg hk] at h
      rw [List.cons_append, posIn_cons_ne hk, ih h]
      simp

theorem not_mem_dictKeys_of_lookup_none {t : Store} {q : String}
    (h : dictLookup t q = none) : q ∉ dictKeys t := by
  rw [mem_dictKeys, h]
  simp

theorem closedB_mem {t : Store} {c : String} {p1 p2 : String}
    (h : ClosedB t = true) (hmem : (c, some (p1, p2)) ∈ t) :
    (dictLookup t p1).isSome ∧ (dictLookup t p2).isSome := by
  rw [ClosedB, List.all_eq_true] at h
  simpa using h _ hmem

theorem rankOKB_mem {rank : String → Nat} {t : Store} {c : String} {p1 p2 : String}
    (h : RankOKB rank t = true) (hmem : (c, some (p1, p2)) ∈ t) :
    rank p1 < rank c ∧ rank p2 < rank c := by
  rw [RankOKB, List.all_eq_true] at h
  simpa using h _ hmem

theorem storeInv_append_one {t : Store} {n : String} {ps : Option (String × String)}
    (h : StoreInv t) (hn : dictLookup t n = none)
    (hps : ∀ a b, ps = some (a, b) → a ∈ dictKeys t ∧ b ∈ dictKeys t) :
    StoreInv (t ++ [(n, ps)]) := by
  obtain ⟨hnd, hcl, hrk⟩ := h
  have hkeys : dictKeys (t ++ [(n, ps)]) = dictKeys t ++ [n] := by
    simp [dictKeys]
  refine ⟨?_, ?_, ?_⟩
  · rw [hkeys, List.nodup_append]
    refine ⟨hnd, by simp, ?_⟩
    intro a ha hb
    simp only [List.mem_singleton] at hb
    subst hb
    exact not_mem_dictKeys_of_lookup_none hn ha
  · rw [ClosedB, List.all_eq_true]
    intro e he
    rcases List.mem_append.mp he with he | he
    · match e, he with
      | (c, none), he => simp
      | (c, some (p1, p2)), he =>
        have := closedB_mem hcl he
        simp only [Bool.and_eq_true]
        constructor
        · rw [dictLookup_append_left this.1]
          exact this.1
        · rw [dictLookup_append_left this.2]
          exact this.2
    · simp only [List.mem_singleton] at he
      subst he
      match ps, hps with
      | none, _ => simp
      | some (a, b), hps =>
        obtain ⟨ha, hb⟩ := hps a b rfl
        simp only [Bool.and_eq_true]
        constructor
        · rw [dictLookup_append_left (mem_dictKeys.mp ha)]
          exact mem_dictKeys.mp ha
        · rw [dictLookup_append_left (mem_dictKeys.mp hb)]
          exact mem_dictKeys.mp hb
  · rw [RankOKB, List.all_eq_true]
    intro e he
    rcases List.mem_append.mp he with he | he
    · match e, he with
      | (c, none), he => simp
      | (c, some (p1, p2)), he =>
        have hlt := rankOKB_mem hrk he
        have hcmem : c ∈ dictKeys t := mem_dictKeys_of_mem he
        have hp1mem : p1 ∈ dictKeys t := mem_dictKeys.mpr (closedB_mem hcl he).1
        have hp2mem : p2 ∈ dictKeys t := mem_dictKeys.mpr (closedB_mem hcl he).2
        simp only [Bool.and_eq_true, decide_eq_true_eq]
        rw [posIn_append_left hcmem, posIn_append_left hp1mem, posIn_append_left hp2mem]
        exact hlt
    · simp only [List.mem_singleton] at he
      subst he
      match ps, hps with
      | none, _ => simp
      | some (a, b), hps =>
        obtain ⟨ha, hb⟩ := hps a b rfl
        simp only [Bool.and_eq_true, decide_eq_true_eq]
        rw [posIn_append_left ha, posIn_append_left hb, posIn_append_fresh hn]
        exact ⟨posIn_lt_length ha, posIn_lt_length hb⟩

theorem lookup_insertPerson_of_isSome {t : Store} {n q : String}
    {v : Option (String × String)} (hq : (dictLookup t q).isSome) :
    dictLookup (insertPerson t n v) q = dictLookup t q := by
  unfold insertPerson
  by_cases hn : (dictLookup t n).isSome
  · simp [hn]
  · have hqn : q ≠ n := by
      rintro rfl
      exact hn hq
    simp only [hn, if_false, Bool.false_eq_true, add_person]
    exact dictLookup_dictSet_ne hqn

theorem insertPerson_self_isSome {t : Store} {n : String} {v : Option (String × String)} :
    (dictLookup (insertPerson t n v) n).isSome := by
  unfold insertPerson
  by_cases hn : (dictLookup t n).isSome
  · simpa [hn] using hn
  · simp only [hn, if_false, Bool.false_eq_true, add_person]
    rw [dictLookup_dictSet_self]
    rfl

theorem storeInv_insertPerson {t : Store} {n : String} {ps : Option (String × String)}
    (h : StoreInv t)
    (hps : ∀ a b, ps = some (a, b) → a ∈ dictKeys t ∧ b ∈ dictKeys t) :
    StoreInv (insertPerson t n ps) := by
  unfold insertPerson
  cases hn : dictLookup t n with
  | some w => simpa using h
  | none =>
    simp only [hn, Option.isSome_none, Bool.false_eq_true, if_false, add_person]
    rw [dictSet_absent hn]
    exact storeInv_append_one h hn hps

theorem storeInv_handleE {t : Store} (h : StoreInv t) (ns : List String) :
    StoreInv (handle_E_query ns t) := by
  unfold handle_E_query
  match ns with
  | [] => exact h
  | [a] => exact h
  | a :: b :: rest =>
    have h1 : StoreInv (insertPerson t a none) :=
      storeInv_insertPerson h (fun _ _ hps => Option.noConfusion hps)
    have h2 : StoreInv (insertPerson (insertPerson t a none) b none) :=
      storeInv_insertPerson h1 (fun _ _ hps => Option.noConfusion hps)
    match rest with
    | [] => exact h2
    | [c] =>
      refine storeInv_insertPerson h2 ?_
      rintro x y hxy
      obtain ⟨rfl, rfl⟩ : a = x ∧ b = y := by
        injection hxy with hxy'
        exact ⟨congrArg Prod.fst hxy', congrArg Prod.snd hxy'⟩
      constructor
      · rw [mem_dictKeys]
        rw [lookup_insertPerson_of_isSome insertPerson_self_isSome]
        exact insertPerson_self_isSome
      · rw [mem_dictKeys]
        exact insertPerson_self_isSome
    | c :: d :: rest' => exact h2

theorem storeInv_runE (cmds : List (List String)) : StoreInv (runE cmds) := by
  have base : StoreInv ([] : Store) := by
    refine ⟨by simp [dictKeys], rfl, rfl⟩
  have step : ∀ (init : Store), StoreInv init →
      StoreInv (cmds.foldl (fun s ns => handle_E_query ns s) init) := by
    induction cmds with
    | nil => intro init h; exact h
    | cons ns rest ih =>
      intro init h
      exact ih _ (storeInv_handleE h ns)
  exact step [] base

/-! ### Claim theorems -/

/-- C1 (code bug): the spec says that where an ancestor name is a key of both
parents' recursive sub-maps, the merged degree set is the union of both, so
an ancestor reachable along two lineage paths of different length carries
every such degree and is returned by get_ancestors at each of them.  The
code merges the two sub-maps with `dict.update`, which overwrites instead of
unioning: in the store built by `E z w a`, `E a v b`, `E a b c`, the root z
is a key of a's sub-map with degrees [1] and of b's sub-map with degrees
[2], yet c's ancestor map records z only at degree 2, and
`get_ancestors(c, 1)` omits z although z is an ancestor of c at distance 1
through a.  (The union does happen for the parent a itself, via the
dedicated collapse branch: a carries [0, 1].) -/
theorem C1_update_overwrites_shared_subtree_keys :
    _get_ancestors 5 storeCollapse "a" 1 = some (some [("z", [1]), ("w", [1])]) ∧
    _get_ancestors 5 storeCollapse "b" 1 =
      some (some [("a", [1]), ("v", [1]), ("z", [2]), ("w", [2])]) ∧
    _get_ancestors 6 storeCollapse "c" 0 =
      some (some [("a", [0, 1]), ("b", [0]), ("z", [2]), ("w", [2]), ("v", [1])]) ∧
    get_ancestors 6 storeCollapse "c" 1 = some ["a", "v"] ∧
    get_ancestors 6 storeCollapse "c" 2 = some ["z", "w"] :=
  ⟨by decide, by decide, by decide, by decide, by decide⟩

/-- C3 (confirmed): in every closed acyclic store in which person c was
inserted with parent pair (a, b), `get_ancestors(c, 0)` consists of exactly
a and b: both recorded parents appear at degree 0 and nobody else does. -/
theorem C3_degree_zero_correctness {t : Store} {rank : String → Nat}
    (hrk : RankOKB rank t = true) (hcl : ClosedB t = true)
    {c a b : String} (hlc : dictLookup t c = some (some (a, b)))
    {fuel : Nat} (hfl : rank c < fuel) :
    ∃ l, get_ancestors fuel t c 0 = some l ∧ ∀ n, (n ∈ l ↔ (n = a ∨ n = b)) := by
  obtain ⟨m, hm⟩ := _get_ancestors_total hrk hcl c 0 (by rw [hlc]; rfl) hfl
  obtain ⟨⟨va, hva, h0a⟩, ⟨vb, hvb, h0b⟩, honly⟩ := _get_ancestors_parents hrk hlc hm
  refine ⟨_, get_ancestors_eq hm 0, ?_⟩
  intro n
  constructor
  · intro hn
    simp only [List.mem_map, List.mem_filter] at hn
    obtain ⟨kv, ⟨hkv, hcond⟩, rfl⟩ := hn
    have h0 : (0 : Nat) ∈ kv.2 := by
      simp only [Bool.or_eq_true] at hcond
      rcases hcond with hcond | hcond
      · exact intIn_zero_iff.mp hcond
      · simp at hcond
    exact honly kv hkv h0
  · intro hn
    simp only [List.mem_map, List.mem_filter]
    rcases hn with rfl | rfl
    · exact ⟨(n, va), ⟨dictLookup_mem hva, by simp [intIn_zero_iff.mpr h0a]⟩, rfl⟩
    · exact ⟨(n, vb), ⟨dictLookup_mem hvb, by simp [intIn_zero_iff.mpr h0b]⟩, rfl⟩

/-- Witness for C3 on the concrete collapse store: c was inserted by
`E a b c` and its degree-0 ancestors are exactly a and b. -/
theorem C3_degree_zero_correctness_witness :
    RankOKB (posIn storeCollapse) storeCollapse = true ∧
    ClosedB storeCollapse = true ∧
    dictLookup storeCollapse "c" = some (some ("a", "b")) ∧
    posIn storeCollapse "c" < 6 ∧
    ∃ l, get_ancestors 6 storeCollapse "c" 0 = some l ∧
      ∀ n, (n ∈ l ↔ (n = "a" ∨ n = "b")) :=
  ⟨by decide, by decide, by decide, by decide,
    C3_degree_zero_correctness
      (show RankOKB (posIn storeCollapse) storeCollapse = true by decide)
      (by decide) (by decide) (by decide)⟩

/-- C5 (confirmed): insertion is idempotent with first-insertion-wins
semantics.  The guarded insertion used by `handle_E_query` is a no-op for a
name already in the store, whatever parent argument is supplied, so the
store after the second insertion equals the store before it; moreover no
complete `E` command ever changes the recorded entry of a name that is
already present. -/
theorem C5_insertion_idempotent {t : Store} {name : String}
    {parents : Option (String × String)} (h : (dictLookup t name).isSome) :
    insertPerson t name parents = t ∧
    ∀ ns n, (dictLookup t n).isSome →
      dictLookup (handle_E_query ns t) n = dictLookup t n := by
  refine ⟨by simp [insertPerson, h], ?_⟩
  intro ns n hn
  unfold handle_E_query
  match ns with
  | [] => rfl
  | [a] => rfl
  | a :: b :: rest =>
    have h1 := lookup_insertPerson_of_isSome (t := t) (n := a) (q := n) (v := none) hn
    have hn1 : (dictLookup (insertPerson t a none) n).isSome := by
      rw [h1]
      exact hn
    have h2 := lookup_insertPerson_of_isSome (n := b) (q := n) (v := none) hn1
    have hn2 : (dictLookup (insertPerson (insertPerson t a none) b none) n).isSome := by
      rw [h2, h1]
      exact hn
    match rest with
    | [] =>
      show dictLookup (insertPerson (insertPerson t a none) b none) n = dictLookup t n
      rw [h2, h1]
    | [c] =>
      show dictLookup (insertPerson (insertPerson (insertPerson t a none) b none) c
        (some (a, b))) n = dictLookup t n
      rw [lookup_insertPerson_of_isSome hn2, h2, h1]
    | c :: d :: rest' =>
      show dictLookup (insertPerson (insertPerson t a none) b none) n = dictLookup t n
      rw [h2, h1]

/-- Witness for C5: re-inserting A into the store built by `E A B` with a
different parent pair leaves the store unchanged. -/
theorem C5_insertion_idempotent_witness :
    (dictLookup storeAB "A").isSome = true ∧
    insertPerson storeAB "A" (some ("A", "B")) = storeAB ∧
    dictLookup (handle_E_query ["B", "A"] storeAB) "A" = dictLookup storeAB "A" :=
  have h := @C5_insertion_idempotent storeAB "A" (some ("A", "B")) (by decide)
  ⟨by decide, h.1, h.2 ["B", "A"] "A" (by decide)⟩

/-- C6 (confirmed): under the closure invariant (every referenced parent is
itself a key) together with the acyclicity the spec assumes throughout, the
resolver reaches no failure branch for any person present in the store, and
for a root person it returns the empty ancestor map rather than an error. -/
theorem C6_resolver_never_fails {t : Store} {rank : String → Nat}
    (hrk : RankOKB rank t = true) (hcl : ClosedB t = true)
    {p : String} (hp : p ∈ dictKeys t) {fuel : Nat} (hfl : rank p < fuel) :
    (∃ m, _get_ancestors fuel t p 0 = some (some m)) ∧
    (dictLookup t p = some none → _get_ancestors fuel t p 0 = some (some [])) := by
  refine ⟨_get_ancestors_total hrk hcl p 0 (mem_dictKeys.mp hp) hfl, ?_⟩
  intro hroot
  cases fuel with
  | zero => omega
  | succ fuel => simp [_get_ancestors, hroot]

/-- Witness for C6 on the concrete sibling store, at the root p. -/
theorem C6_resolver_never_fails_witness :
    RankOKB (posIn storeSib) storeSib = true ∧
    ClosedB storeSib = true ∧
    "p" ∈ dictKeys storeSib ∧
    posIn storeSib "p" < 5 ∧
    ((∃ m, _get_ancestors 5 storeSib "p" 0 = some (some m)) ∧
      (dictLookup storeSib "p" = some none →
        _get_ancestors 5 storeSib "p" 0 = some (some []))) :=
  ⟨by decide, by decide, by decide, by decide,
    C6_resolver_never_fails
      (show RankOKB (posIn storeSib) storeSib = true by decide)
      (by decide) (by decide) (by decide)⟩

/-- C7 (code bug): the spec says a non-integer degree token is rejected with
a diagnostic and an integer one is dispatched.  Kariuki.py pops the wrong
list index as the degree (`args.pop(1)` takes the second name for `X`, and
`args.pop(0)` the queried name for `W`), so a command whose degree token is
the perfectly valid integer 2 (or 0) is rejected with an invalid-degree
diagnostic that even prints the stale default -1; main.py pops the correct
token but rejects a genuinely invalid degree silently, with no diagnostic,
while dispatching the valid one. -/
theorem C7_degree_token_parsing :
    handle_query 3 ["X", "A", "cousin", "B", "2"] storeAB =
      some (["X A cousin B 2", "[!] Invalid degree: -1\n"], storeAB) ∧
    handle_query 3 ["W", "cousin", "A", "0"] storeAB =
      some (["W cousin A 0", "[!] Invalid degree: -1\n"], storeAB) ∧
    handle_query_main 3 ["X", "A", "cousin", "B", "xx"] storeAB =
      some (["X A cousin B xx"], storeAB) ∧
    handle_query_main 3 ["X", "A", "cousin", "B", "2"] storeAB =
      some (["X A cousin B 2", "...\n"], storeAB) :=
  ⟨by decide, by decide, by decide, by decide⟩

/-- C8 (confirmed): on a closed store whose insertion order is a topological
order of the parent relation (the rank of C9), the resolver stabilises for
every person once the fuel reaches the number of tree members: the
recursion is a total function bounded by the store size. -/
theorem C8_resolver_terminates {t : Store}
    (hrk : RankOKB (posIn t) t = true) (hcl : ClosedB t = true)
    {p : String} (hp : p ∈ dictKeys t) :
    ∃ m, ∀ fuel, t.length ≤ fuel → _get_ancestors fuel t p 0 = some (some m) := by
  obtain ⟨m, hm⟩ := _get_ancestors_total hrk hcl p 0 (mem_dictKeys.mp hp)
    (posIn_lt_length hp)
  exact ⟨m, fun fuel hf => _get_ancestors_stable hm hf⟩

/-- Witness for C8 on the concrete collapse store at person c. -/
theorem C8_resolver_terminates_witness :
    RankOKB (posIn storeCollapse) storeCollapse = true ∧
    ClosedB storeCollapse = true ∧
    "c" ∈ dictKeys storeCollapse ∧
    ∃ m, ∀ fuel, storeCollapse.length ≤ fuel →
      _get_ancestors fuel storeCollapse "c" 0 = some (some m) :=
  ⟨by decide, by decide, by decide,
    C8_resolver_terminates
      (show RankOKB (posIn storeCollapse) storeCollapse = true by decide)
      (by decide) (by decide)⟩

/-- C9 (confirmed): starting from the empty store, any sequence of `E`
commands produces a store whose keys are never overwritten (no duplicates),
in which every recorded parent is an earlier-inserted key (insertion order
is a topological order of the parent relation), no person is their own
parent, and no person occurs in their own ancestor map. -/
theorem C9_reachable_stores_acyclic (cmds : List (List String)) :
    (dictKeys (runE cmds)).Nodup ∧
    ClosedB (runE cmds) = true ∧
    RankOKB (posIn (runE cmds)) (runE cmds) = true ∧
    (∀ c p1 p2, dictLookup (runE cmds) c = some (some (p1, p2)) → c ≠ p1 ∧ c ≠ p2) ∧
    (∀ p ∈ dictKeys (runE cmds), ∀ fuel m,
      _get_ancestors fuel (runE cmds) p 0 = some (some m) → p ∉ dictKeys m) := by
  obtain ⟨hnd, hcl, hrk⟩ := storeInv_runE cmds
  refine ⟨hnd, hcl, hrk, ?_, ?_⟩
  · intro c p1 p2 hl
    have hlt := rankOKB_parents hrk hl
    constructor
    · rintro rfl
      omega
    · rintro rfl
      omega
  · intro p hp fuel m hm hpm
    have := _get_ancestors_rank hrk hm p hpm
    omega

/-- Witness for C9 on the command sequence that builds the collapse store:
c is not a parent of itself and does not occur in its own ancestor map. -/
theorem C9_reachable_stores_acyclic_witness :
    (dictKeys storeCollapse).Nodup ∧
    ClosedB storeCollapse = true ∧
    ("c" ≠ "a" ∧ "c" ≠ "b") ∧
    "c" ∉ dictKeys [("a", [0, 1]), ("b", [0]), ("z", [2]), ("w", [2]), ("v", [1])] :=
  have h := C9_reachable_stores_acyclic [["z", "w", "a"], ["a", "v", "b"], ["a", "b", "c"]]
  ⟨h.1, h.2.1, h.2.2.2.1 "c" "a" "b" (by decide),
    h.2.2.2.2 "c" (by decide) 6 _ (by decide)⟩

/-- C10 (confirmed): every candidate produced by the pre-filter of
get_cousins (distinct, not unrelated, not an ancestor in either direction)
shares at least one common ancestor with the person, so the minimum in the
cousin-degree computation is taken over a nonempty collection and
get_cousins never fails, at -1 or at any requested degree d >= 0. -/
theorem C10_cousin_minimum_never_empty {t : Store} {rank : String → Nat}
    {fuel : Nat} (hrk : RankOKB rank t = true) (hcl : ClosedB t = true)
    (hfl : ∀ q ∈ dictKeys t, rank q < fuel) {p : String} (hp : p ∈ dictKeys t) :
    ∃ ac, optFilter (cousinFilter fuel t p) (dictKeys t) = some ac ∧
      (∀ c ∈ ac, ∃ mp mc, _get_ancestors fuel t p 0 = some (some mp) ∧
        _get_ancestors fuel t c 0 = some (some mc) ∧
        ((dictKeys mp).filter fun k => (dictKeys mc).contains k) ≠ [] ∧
        ∃ dc, cousinDegreeOf fuel t p c = some dc) ∧
      (∀ d : Int, -1 ≤ d → (get_cousins fuel t p d).isSome) := by
  obtain ⟨ac, hac, hany, hdeg⟩ := get_cousins_char hrk hcl hfl hp
  refine ⟨ac, hac, ?_, ?_⟩
  · intro c hcm
    have hcfil := (mem_optFilter hac).mp hcm
    exact cousinDegreeOf_isSome_of_candidate hrk hcl hfl hp hcfil.1 hcfil.2
  · intro d hd
    by_cases hneg : d = -1
    · subst hneg
      rw [hany]
      rfl
    · have hd0 : 0 ≤ d := by omega
      have hcast : ((d.toNat : Nat) : Int) = d := Int.toNat_of_nonneg hd0
      obtain ⟨l, hl, -⟩ := hdeg d.toNat
      rw [← hcast, hl]
      rfl

/-- Witness for C10 on the sibling store at person y: x is a candidate, the
common-ancestor list is nonempty, and get_cousins succeeds. -/
theorem C10_cousin_minimum_never_empty_witness :
    RankOKB (posIn storeSib) storeSib = true ∧
    ClosedB storeSib = true ∧
    (∀ q ∈ dictKeys storeSib, posIn storeSib q < 5) ∧
    "y" ∈ dictKeys storeSib ∧
    ∃ ac, optFilter (cousinFilter 5 storeSib "y") (dictKeys storeSib) = some ac ∧
      (∀ c ∈ ac, ∃ mp mc, _get_ancestors 5 storeSib "y" 0 = some (some mp) ∧
        _get_ancestors 5 storeSib c 0 = some (some mc) ∧
        ((dictKeys mp).filter fun k => (dictKeys mc).contains k) ≠ [] ∧
        ∃ dc, cousinDegreeOf 5 storeSib "y" c = some dc) ∧
      (∀ d : Int, -1 ≤ d → (get_cousins 5 storeSib "y" d).isSome) :=
  ⟨by decide, by decide, by decide, by decide,
    C10_cousin_minimum_never_empty
      (show RankOKB (posIn storeSib) storeSib = true by decide)
      (by decide) (by decide) (by decide)⟩

/-- C2 (confirmed): for a person p and a candidate c (a tree member distinct
from p, not unrelated to p and not an ancestor of p in either direction), c
is in `get_cousins(p, d)` for d >= 0 exactly when d is the minimum, over all
common ancestors of p and c, of the smaller of the least degree at which the
ancestor occurs in p's ancestor map and the least degree at which it occurs
in c's ancestor map; with degree -1 (ANY) every candidate is returned. -/
theorem C2_get_cousins_minimum_characterization {t : Store} {rank : String → Nat}
    {fuel : Nat} (hrk : RankOKB rank t = true) (hcl : ClosedB t = true)
    (hfl : ∀ q ∈ dictKeys t, rank q < fuel)
    {p c : String} (hp : p ∈ dictKeys t) (hc : c ∈ dictKeys t) (hne : c ≠ p)
    (hrel : is_unrelated fuel t c p = some false)
    (hanc1 : is_ancestor fuel t c p (-1) = some false)
    (hanc2 : is_ancestor fuel t p c (-1) = some false)
    {mp mc : AncMap}
    (hmp : _get_ancestors fuel t p 0 = some (some mp))
    (hmc : _get_ancestors fuel t c 0 = some (some mc)) :
    (∀ d : Nat, ∃ l, get_cousins fuel t p (d : Int) = some l ∧
      (c ∈ l ↔
        ((∃ k a b, (k ∈ dictKeys mp ∧ k ∈ dictKeys mc) ∧
          (∃ u, dictLookup mp k = some u ∧ a ∈ u ∧ ∀ x ∈ u, a ≤ x) ∧
          (∃ u, dictLookup mc k = some u ∧ b ∈ u ∧ ∀ x ∈ u, b ≤ x) ∧
          Nat.min a b = d) ∧
        (∀ k a b, (k ∈ dictKeys mp ∧ k ∈ dictKeys mc) →
          (∃ u, dictLookup mp k = some u ∧ a ∈ u ∧ ∀ x ∈ u, a ≤ x) →
          (∃ u, dictLookup mc k = some u ∧ b ∈ u ∧ ∀ x ∈ u, b ≤ x) →
          d ≤ Nat.min a b)))) ∧
    (∃ l, get_cousins fuel t p (-1) = some l ∧ c ∈ l) := by
  have hfil : cousinFilter fuel t p c = some true := by
    rw [cousinFilter_eq hrel hanc1 hanc2]
    have hbeq : (c == p) = false := by simp [hne]
    simp [hbeq]
  obtain ⟨ac, hac, hany, hdeg⟩ := get_cousins_char hrk hcl hfl hp
  have hcac : c ∈ ac := (mem_optFilter hac).mpr ⟨hc, hfil⟩
  obtain ⟨vals, hvals⟩ := common_mins_some hmp hmc
  have hcommon : ∀ {k : String},
      (k ∈ (dictKeys mp).filter fun k => (dictKeys mc).contains k) ↔
        (k ∈ dictKeys mp ∧ k ∈ dictKeys mc) := by
    intro k
    simp [List.mem_filter, contains_iff_mem]
  constructor
  · intro d
    obtain ⟨l, hl, hmem⟩ := hdeg d
    refine ⟨l, hl, ?_⟩
    rw [hmem c]
    constructor
    · rintro ⟨-, hcd⟩
      rw [cousinDegreeOf_eq hmp hmc, hvals] at hcd
      obtain ⟨hdmem, hdle⟩ := pyMin_spec hcd
      constructor
      · obtain ⟨k, hkcom, hkval⟩ := (mem_optMapList hvals).mp hdmem
        obtain ⟨a, b, hA, hB, hmin⟩ := perAncestorMin_iff.mp hkval
        exact ⟨k, a, b, hcommon.mp hkcom, hA, hB, hmin⟩
      · intro k a b hkcom hA hB
        have hkval : perAncestorMin mp mc k = some (Nat.min a b) :=
          perAncestorMin_iff.mpr ⟨a, b, hA, hB, rfl⟩
        exact hdle _ ((mem_optMapList hvals).mpr ⟨k, hcommon.mpr hkcom, hkval⟩)
    · rintro ⟨⟨k, a, b, hkcom, hA, hB, hmin⟩, hlb⟩
      refine ⟨hcac, ?_⟩
      rw [cousinDegreeOf_eq hmp hmc, hvals]
      apply pyMin_eq_some
      · exact (mem_optMapList hvals).mpr
          ⟨k, hcommon.mpr hkcom, perAncestorMin_iff.mpr ⟨a, b, hA, hB, hmin⟩⟩
      · intro x hx
        obtain ⟨k2, hk2com, hk2val⟩ := (mem_optMapList hvals).mp hx
        obtain ⟨a2, b2, hA2, hB2, hmin2⟩ := perAncestorMin_iff.mp hk2val
        rw [← hmin2]
        exact hlb k2 a2 b2 (hcommon.mp hk2com) hA2 hB2
  · exact ⟨ac, hany, hcac⟩

/-- Witness for C2 on the sibling store: x is a candidate cousin of y,
appearing at degree 0, with the minimum characterised over the shared
parents p and q. -/
theorem C2_get_cousins_minimum_characterization_witness :
    RankOKB (posIn storeSib) storeSib = true ∧
    ClosedB storeSib = true ∧
    (∀ q ∈ dictKeys storeSib, posIn storeSib q < 5) ∧
    "y" ∈ dictKeys storeSib ∧ "x" ∈ dictKeys storeSib ∧ "x" ≠ "y" ∧
    is_unrelated 5 storeSib "x" "y" = some false ∧
    is_ancestor 5 storeSib "x" "y" (-1) = some false ∧
    is_ancestor 5 storeSib "y" "x" (-1) = some false ∧
    _get_ancestors 5 storeSib "y" 0 = some (some [("p", [0]), ("q", [0])]) ∧
    _get_ancestors 5 storeSib "x" 0 = some (some [("p", [0]), ("q", [0])]) ∧
    ((∀ d : Nat, ∃ l, get_cousins 5 storeSib "y" (d : Int) = some l ∧
      ("x" ∈ l ↔
        ((∃ k a b, (k ∈ dictKeys [("p", [0]), ("q", [0])] ∧
            k ∈ dictKeys [("p", [0]), ("q", [0])]) ∧
          (∃ u, dictLookup [("p", [0]), ("q", [0])] k = some u ∧ a ∈ u ∧ ∀ x ∈ u, a ≤ x) ∧
          (∃ u, dictLookup [("p", [0]), ("q", [0])] k = some u ∧ b ∈ u ∧ ∀ x ∈ u, b ≤ x) ∧
          Nat.min a b = d) ∧
        (∀ k a b, (k ∈ dictKeys [("p", [0]), ("q", [0])] ∧
            k ∈ dictKeys [("p", [0]), ("q", [0])]) →
          (∃ u, dictLookup [("p", [0]), ("q", [0])] k = some u ∧ a ∈ u ∧ ∀ x ∈ u, a ≤ x) →
          (∃ u, dictLookup [("p", [0]), ("q", [0])] k = some u ∧ b ∈ u ∧ ∀ x ∈ u, b ≤ x) →
          d ≤ Nat.min a b)))) ∧
    (∃ l, get_cousins 5 storeSib "y" (-1) = some l ∧ "x" ∈ l)) :=
  ⟨by decide, by decide, by decide, by decide, by decide, by decide, by decide,
    by decide, by decide, by decide, by decide,
    C2_get_cousins_minimum_characterization
      (show RankOKB (posIn storeSib) storeSib = true by decide)
      (by decide) (by decide) (by decide) (by decide) (by decide) (by decide)
      (by decide) (by decide) (by decide) (by decide)⟩

/-- Support: eliminating a true is_sibling into its components. -/
theorem is_sibling_true_elim {t : Store} {x y : String}
    (h : is_sibling t x y = some true) :
    x ≠ y ∧ ∃ a1 a2 b1 b2, dictLookup t x = some (some (a1, a2)) ∧
      dictLookup t y = some (some (b1, b2)) ∧
      (a1 = b1 ∨ a1 = b2 ∨ a2 = b1 ∨ a2 = b2) := by
  unfold is_sibling at h
  by_cases hxy : x = y
  · rw [if_pos hxy] at h
    simp at h
  · rw [if_neg hxy] at h
    refine ⟨hxy, ?_⟩
    cases hlx : dictLookup t x with
    | none => rw [hlx] at h; exact Option.noConfusion h
    | some px =>
      rw [hlx] at h
      match px, h with
      | none, h => simp at h
      | some (a1, a2), h =>
        cases hly : dictLookup t y with
        | none => rw [hly] at h; exact Option.noConfusion h
        | some py =>
          rw [hly] at h
          match py, h with
          | none, h => simp at h
          | some (b1, b2), h =>
            have hb := Option.some.inj h
            simp only [Bool.or_eq_true, beq_iff_eq] at hb
            exact ⟨a1, a2, b1, b2, rfl, rfl, by tauto⟩

/-- C4 counterexample: in the store built by `E p q x`, `E p q y`, the
distinct members x and y are simultaneously siblings and cousins (of degree
0, and of some degree), so the four relations do not hold exactly once. -/
theorem C4_sibling_cousin_overlap :
    "x" ≠ "y" ∧ "x" ∈ dictKeys storeSib ∧ "y" ∈ dictKeys storeSib ∧
    is_sibling storeSib "x" "y" = some true ∧
    is_cousin 5 storeSib "x" "y" 0 = some true ∧
    is_cousin 5 storeSib "x" "y" (-1) = some true :=
  ⟨by decide, by decide, by decide, by decide, by decide, by decide⟩

/-- C4 (amended): for two distinct members of a closed acyclic store, exactly
one of the three classes holds: ancestor-relation in either direction,
cousin at some degree, or unrelated.  The sibling relation is not a fourth
disjoint class: a sibling pair is never unrelated, so it always also lies in
the ancestor or cousin class (full siblings are cousins of degree 0). -/
theorem C4_amended_partition {t : Store} {rank : String → Nat} {fuel : Nat}
    (hrk : RankOKB rank t = true) (hcl : ClosedB t = true)
    (hfl : ∀ q ∈ dictKeys t, rank q < fuel)
    {x y : String} (hx : x ∈ dictKeys t) (hy : y ∈ dictKeys t) (hne : x ≠ y) :
    ((is_ancestor fuel t x y (-1) = some true ∨ is_ancestor fuel t y x (-1) = some true) ∨
      (∃ d : Nat, is_cousin fuel t x y (d : Int) = some true) ∨
      is_unrelated fuel t x y = some true) ∧
    ¬((is_ancestor fuel t x y (-1) = some true ∨ is_ancestor fuel t y x (-1) = some true) ∧
      (∃ d : Nat, is_cousin fuel t x y (d : Int) = some true)) ∧
    ¬((is_ancestor fuel t x y (-1) = some true ∨ is_ancestor fuel t y x (-1) = some true) ∧
      is_unrelated fuel t x y = some true) ∧
    ¬((∃ d : Nat, is_cousin fuel t x y (d : Int) = some true) ∧
      is_unrelated fuel t x y = some true) ∧
    (is_sibling t x y = some true → is_unrelated fuel t x y ≠ some true) := by
  obtain ⟨mx, hmx⟩ := _get_ancestors_total hrk hcl x 0 (mem_dictKeys.mp hx) (hfl _ hx)
  obtain ⟨my, hmy⟩ := _get_ancestors_total hrk hcl y 0 (mem_dictKeys.mp hy) (hfl _ hy)
  obtain ⟨ac, hac, hany, hdeg⟩ := get_cousins_char hrk hcl hfl hy
  have hxybeq : (x == y) = false := by simp [hne]
  have hax : is_ancestor fuel t x y (-1) = some ((dictKeys my).contains x) :=
    is_ancestor_eq hmy x
  have hay : is_ancestor fuel t y x (-1) = some ((dictKeys mx).contains y) :=
    is_ancestor_eq hmx y
  have hu := is_unrelated_eq hmx hmy
  have hfil := cousinFilter_eq hu hax hay
  -- the boolean components
  have hHC : (∃ d : Nat, is_cousin fuel t x y (d : Int) = some true) ↔ x ∈ ac := by
    constructor
    · rintro ⟨d, hd⟩
      obtain ⟨l, hl, hmem⟩ := hdeg d
      rw [is_cousin, hl] at hd
      have hxl : x ∈ l := contains_iff_mem.mp (Option.some.inj hd)
      exact ((hmem x).mp hxl).1
    · intro hxac
      have hxfil := (mem_optFilter hac).mp hxac
      obtain ⟨mp2, mc2, -, -, -, dc, hdc⟩ :=
        cousinDegreeOf_isSome_of_candidate hrk hcl hfl hy hxfil.1 hxfil.2
      obtain ⟨l, hl, hmem⟩ := hdeg dc
      refine ⟨dc, ?_⟩
      have hxl : x ∈ l := (hmem x).mpr ⟨hxac, hdc⟩
      rw [is_cousin, hl]
      simpa using hxl
  have hHCfil : x ∈ ac ↔ cousinFilter fuel t y x = some true := by
    constructor
    · intro hxac
      exact ((mem_optFilter hac).mp hxac).2
    · intro hfil'
      exact (mem_optFilter hac).mpr ⟨hx, hfil'⟩
  have hHS : is_sibling t x y = some true →
      interB (dictKeys mx) (dictKeys my) = true := by
    intro hs
    obtain ⟨-, a1, a2, b1, b2, hlx, hly, hshare⟩ := is_sibling_true_elim hs
    obtain ⟨⟨va1, hva1, -⟩, ⟨va2, hva2, -⟩, -⟩ := _get_ancestors_parents hrk hlx hmx
    obtain ⟨⟨vb1, hvb1, -⟩, ⟨vb2, hvb2, -⟩, -⟩ := _get_ancestors_parents hrk hly hmy
    apply interB_iff.mpr
    rcases hshare with rfl | rfl | rfl | rfl
    · exact ⟨a1, mem_dictKeys.mpr (by rw [hva1]; rfl), mem_dictKeys.mpr (by rw [hvb1]; rfl)⟩
    · exact ⟨a1, mem_dictKeys.mpr (by rw [hva1]; rfl), mem_dictKeys.mpr (by rw [hvb2]; rfl)⟩
    · exact ⟨a2, mem_dictKeys.mpr (by rw [hva2]; rfl), mem_dictKeys.mpr (by rw [hvb1]; rfl)⟩
    · exact ⟨a2, mem_dictKeys.mpr (by rw [hva2]; rfl), mem_dictKeys.mpr (by rw [hvb2]; rfl)⟩
  -- name the three booleans and case over them
  obtain ⟨bxy, hbxy⟩ : ∃ v, (dictKeys my).contains x = v := ⟨_, rfl⟩
  obtain ⟨byx, hbyx⟩ : ∃ v, (dictKeys mx).contains y = v := ⟨_, rfl⟩
  obtain ⟨bint, hbint⟩ : ∃ v, interB (dictKeys mx) (dictKeys my) = v := ⟨_, rfl⟩
  rw [hbxy] at hax
  rw [hbyx] at hay
  rw [hbxy, hbyx, hbint, hxybeq] at hu
  rw [hbxy, hbyx, hbint, hxybeq] at hfil
  rw [hbint] at hHS
  rw [hHCfil, hfil] at hHC
  rw [hax, hay, hu]
  cases bxy <;> cases byx <;> cases bint <;> simp_all

/-- Witness for the amended C4 on the sibling store: the three-way partition
holds for the distinct members x and y, and their sibling relation excludes
unrelatedness. -/
theorem C4_amended_partition_witness :
    RankOKB (posIn storeSib) storeSib = true ∧
    ClosedB storeSib = true ∧
    (∀ q ∈ dictKeys storeSib, posIn storeSib q < 5) ∧
    "x" ∈ dictKeys storeSib ∧ "y" ∈ dictKeys storeSib ∧ "x" ≠ "y" ∧
    (((is_ancestor 5 storeSib "x" "y" (-1) = some true ∨
        is_ancestor 5 storeSib "y" "x" (-1) = some true) ∨
      (∃ d : Nat, is_cousin 5 storeSib "x" "y" (d : Int) = some true) ∨
      is_unrelated 5 storeSib "x" "y" = some true) ∧
    ¬((is_ancestor 5 storeSib "x" "y" (-1) = some true ∨
        is_ancestor 5 storeSib "y" "x" (-1) = some true) ∧
      (∃ d : Nat, is_cousin 5 storeSib "x" "y" (d : Int) = some true)) ∧
    ¬((is_ancestor 5 storeSib "x" "y" (-1) = some true ∨
        is_ancestor 5 storeSib "y" "x" (-1) = some true) ∧
      is_unrelated 5 storeSib "x" "y" = some true) ∧
    ¬((∃ d : Nat, is_cousin 5 storeSib "x" "y" (d : Int) = some true) ∧
      is_unrelated 5 storeSib "x" "y" = some true) ∧
    (is_sibling storeSib "x" "y" = some true →
      is_unrelated 5 storeSib "x" "y" ≠ some true)) :=
  ⟨by decide, by decide, by decide, by decide, by decide, by decide,
    C4_amended_partition
      (show RankOKB (posIn storeSib) storeSib = true by decide)
      (by decide) (by decide) (by decide) (by decide) (by decide)⟩

end Kariuki
